import Mathlib

/-!
Verification development for the fastdel directory-deletion engine
(src/src/main.rs).  The engine and its statistics accumulator are embedded
shallowly: filesystem outcomes (listing failures, metadata failures,
removal failures, iterator failures, symbolic links) are injected into an
inductive tree, and the engine is translated function-by-function from the
Rust source.  Every run yields the final accumulator value together with a
trace of the observable filesystem operations, in the order the source
performs them.
-/

namespace FastDel

/-- Statistics tracking for the deletion operation (struct DeletionStats,
main.rs lines 43-49).  The four AtomicU64 counters are stored as natural
numbers: the traversal is a single logical task, so the atomics only ever
see sequential fetch_add calls.  The three counters that grow by one per
filesystem operation cannot come near the 2^64 wrap in any run (that would
take 2^64 filesystem calls), so their increments are plain successor;
bytes_freed, however, is fed whole u64 metadata lengths - a single sparse
file can report close to 2^64 bytes - so add_bytes carries the wrapping
fetch_add semantics explicitly. -/
structure DeletionStats where
  files_deleted : Nat
  dirs_deleted : Nat
  errors_encountered : Nat
  bytes_freed : Nat
deriving DecidableEq, Repr

/-- DeletionStats::new via Default (main.rs lines 52-54): all counters zero. -/
def DeletionStats.new : DeletionStats := ⟨0, 0, 0, 0⟩

/-- DeletionStats::increment_files (main.rs lines 56-58). -/
def DeletionStats.increment_files (s : DeletionStats) : DeletionStats :=
  { s with files_deleted := s.files_deleted + 1 }

/-- DeletionStats::increment_dirs (main.rs lines 60-62). -/
def DeletionStats.increment_dirs (s : DeletionStats) : DeletionStats :=
  { s with dirs_deleted := s.dirs_deleted + 1 }

/-- DeletionStats::increment_errors (main.rs lines 64-66). -/
def DeletionStats.increment_errors (s : DeletionStats) : DeletionStats :=
  { s with errors_encountered := s.errors_encountered + 1 }

/-- DeletionStats::add_bytes (main.rs lines 68-70): AtomicU64 fetch_add
wraps on overflow, so the stored value is the sum reduced modulo 2^64. -/
def DeletionStats.add_bytes (s : DeletionStats) (bytes : Nat) : DeletionStats :=
  { s with bytes_freed := (s.bytes_freed + bytes) % 2 ^ 64 }

/-- DeletionStats::get_summary (main.rs lines 72-79): the four counters as a
tuple (files, dirs, errors, bytes). -/
def DeletionStats.get_summary (s : DeletionStats) : Nat × Nat × Nat × Nat :=
  (s.files_deleted, s.dirs_deleted, s.errors_encountered, s.bytes_freed)

mutual
/-- One filesystem object as the engine can observe it through tokio::fs,
with the outcome of every fallible call injected as data:
file size removeOk - fs::metadata succeeds, is_dir is false, len is size,
  and fs::remove_file on this path returns Ok exactly when removeOk;
metaErr - fs::metadata on this path returns Err (for the root this is the
  AccessError case; for a child it is the per-entry metadata failure);
link removeOk target - a symbolic link; fs::metadata and fs::read_dir
  follow it to target, while remove_file and remove_dir act on the link
  path itself, with outcome removeOk;
unreadableDir removeOk - fs::metadata says directory, fs::read_dir returns
  Err, fs::remove_dir outcome is removeOk;
dir children removeOk - fs::metadata says directory, fs::read_dir yields
  the stream children, fs::remove_dir outcome is removeOk. -/
inductive FsNode : Type where
  | file (size : Nat) (removeOk : Bool) : FsNode
  | metaErr : FsNode
  | link (removeOk : Bool) (target : FsNode) : FsNode
  | unreadableDir (removeOk : Bool) : FsNode
  | dir (children : FsEntries) (removeOk : Bool) : FsNode

/-- The entry stream a successful fs::read_dir produces, as consumed by the
while let Ok(Some(entry)) loop (main.rs line 157): nil ends the stream
normally, cons yields one entry, and iterFail is a position at which
next_entry returns Err - the loop stops there and the entries recorded in
rest are never yielded. -/
inductive FsEntries : Type where
  | nil : FsEntries
  | iterFail (rest : FsEntries) : FsEntries
  | cons (child : FsNode) (rest : FsEntries) : FsEntries
end

mutual
def FsNode.beq : FsNode → FsNode → Bool
  | .file a b, .file c d => a == c && b == d
  | .metaErr, .metaErr => true
  | .link a t, .link b u => a == b && FsNode.beq t u
  | .unreadableDir a, .unreadableDir b => a == b
  | .dir c a, .dir d b => FsEntries.beq c d && a == b
  | _, _ => false

def FsEntries.beq : FsEntries → FsEntries → Bool
  | .nil, .nil => true
  | .iterFail r, .iterFail t => FsEntries.beq r t
  | .cons c r, .cons d t => FsNode.beq c d && FsEntries.beq r t
  | _, _ => false
end

/-- A fatal, run-aborting outcome of delete_directory: accessError when the
metadata query on the root fails (main.rs lines 118-119), invalidTargetError
when the root exists but is not a directory (main.rs lines 121-123). -/
inductive FatalError : Type where
  | accessError : FatalError
  | invalidTargetError : FatalError
deriving DecidableEq, Repr

/-- One observable filesystem operation of a run, tagged with the position
of the path it acts on (the list of child indices from the root; the root
itself is the empty list): listFail is a failed fs::read_dir, metaFail a
failed per-entry fs::metadata, fileOk and fileFail the two outcomes of
fs::remove_file (fileOk carries the byte length credited), dirOk and
dirFail the two outcomes of fs::remove_dir. -/
inductive Event : Type where
  | listFail (p : List Nat) : Event
  | metaFail (p : List Nat) : Event
  | fileOk (p : List Nat) (size : Nat) : Event
  | fileFail (p : List Nat) : Event
  | dirOk (p : List Nat) : Event
  | dirFail (p : List Nat) : Event
deriving DecidableEq, Repr

/-- Position of the path an event acts on. -/
def Event.pos : Event → List Nat
  | .listFail p => p
  | .metaFail p => p
  | .fileOk p _ => p
  | .fileFail p => p
  | .dirOk p => p
  | .dirFail p => p

/-- Resolution performed by the link-following calls fs::metadata and
fs::read_dir: strip symbolic links down to the target object. -/
def resolve : FsNode → FsNode
  | .link _ t => resolve t
  | n => n

/-- Outcome injected for a removal call on the path of this node itself
(for a link, the link path is what remove_file or remove_dir acts on, so
the link carries its own outcome; a metaErr node is never removed and the
value is irrelevant). -/
def outerFlag : FsNode → Bool
  | .file _ r => r
  | .metaErr => true
  | .link r _ => r
  | .unreadableDir r => r
  | .dir _ r => r

/-- DeletionEngine::remove_file (main.rs lines 189-202): on Ok increment
the file counter and credit the size, on Err increment the error counter;
both arms return Ok to the caller. -/
def remove_file (p : List Nat) (size : Nat) (ok : Bool) (s : DeletionStats) :
    DeletionStats × List Event :=
  if ok then ((s.increment_files).add_bytes size, [Event.fileOk p size])
  else (s.increment_errors, [Event.fileFail p])

/-- DeletionEngine::remove_directory (main.rs lines 205-217): on Ok
increment the directory counter, on Err increment the error counter; both
arms return Ok to the caller. -/
def remove_directory (p : List Nat) (ok : Bool) (s : DeletionStats) :
    DeletionStats × List Event :=
  if ok then (s.increment_dirs, [Event.dirOk p])
  else (s.increment_errors, [Event.dirFail p])

/-- Classification pass of the while let loop (main.rs lines 157-172): the
only accumulator effect of the loop itself is one error increment per
yielded entry whose fs::metadata call fails.  The loop stops at the first
iterFail and never sees entries beyond it.  The entry at stream offset k is
the child with index i + k of the directory at position p. -/
def classifyErrors (p : List Nat) (i : Nat) (es : FsEntries) (s : DeletionStats) :
    DeletionStats × List Event :=
  match es with
  | .nil => (s, [])
  | .iterFail _ => (s, [])
  | .cons c rest =>
    match resolve c with
    | .metaErr =>
      let r := classifyErrors p (i + 1) rest s.increment_errors
      (r.1, Event.metaFail (p ++ [i]) :: r.2)
    | _ => classifyErrors p (i + 1) rest s

/-- File pass (main.rs lines 174-177): every yielded entry whose metadata
classified it as non-directory is pushed to file_paths with its metadata
length and then removed in stream order. -/
def deleteFiles (p : List Nat) (i : Nat) (es : FsEntries) (s : DeletionStats) :
    DeletionStats × List Event :=
  match es with
  | .nil => (s, [])
  | .iterFail _ => (s, [])
  | .cons c rest =>
    match resolve c with
    | .file sz _ =>
      let r1 := remove_file (p ++ [i]) sz (outerFlag c) s
      let r2 := deleteFiles p (i + 1) rest r1.1
      (r2.1, r1.2 ++ r2.2)
    | _ => deleteFiles p (i + 1) rest s

mutual
/-- DeletionEngine::delete_directory_contents_concurrent (main.rs lines
142-186) on the object at position p.  A failed fs::read_dir records one
error and returns Ok with nothing else done (lines 144-151); otherwise the
single classification loop of the source is rendered as the error pass
followed by the file pass followed by the directory pass, which perform
the identical accumulator updates and filesystem calls in the identical
order (the source buffers file_paths and dir_paths during the loop and
then iterates the two buffers, and the metadata-failure increments of the
loop all precede the first removal).  A link argument is followed, since
fs::read_dir resolves it.  The file and metaErr cases are never reached by
any caller (delete_directory and deleteDirs only pass directory-resolving
nodes) and return the state unchanged. -/
def delete_directory_contents_concurrent (p : List Nat) (n : FsNode)
    (s : DeletionStats) : DeletionStats × List Event :=
  match n with
  | .link _ t => delete_directory_contents_concurrent p t s
  | .unreadableDir _ => (s.increment_errors, [Event.listFail p])
  | .dir children _ =>
    let r1 := classifyErrors p 0 children s
    let r2 := deleteFiles p 0 children r1.1
    let r3 := deleteDirs p 0 children r2.1
    (r3.1, r1.2 ++ (r2.2 ++ r3.2))
  | _ => (s, [])

/-- Directory pass (main.rs lines 179-183): every yielded entry whose
metadata classified it as a directory is recursed into and then its own
removal is attempted, in stream order. -/
def deleteDirs (p : List Nat) (i : Nat) (es : FsEntries) (s : DeletionStats) :
    DeletionStats × List Event :=
  match es with
  | .nil => (s, [])
  | .iterFail _ => (s, [])
  | .cons c rest =>
    match resolve c with
    | .unreadableDir _ =>
      let r1 := delete_directory_contents_concurrent (p ++ [i]) c s
      let r2 := remove_directory (p ++ [i]) (outerFlag c) r1.1
      let r3 := deleteDirs p (i + 1) rest r2.1
      (r3.1, r1.2 ++ (r2.2 ++ r3.2))
    | .dir _ _ =>
      let r1 := delete_directory_contents_concurrent (p ++ [i]) c s
      let r2 := remove_directory (p ++ [i]) (outerFlag c) r1.1
      let r3 := deleteDirs p (i + 1) rest r2.1
      (r3.1, r1.2 ++ (r2.2 ++ r3.2))
    | _ => deleteDirs p (i + 1) rest s
end

/-- DeletionEngine::delete_directory (main.rs lines 116-134): validate the
root with fs::metadata (which follows links), failing fatally when the
metadata call fails or the object is not a directory; otherwise empty the
tree and finally attempt removal of the root itself.  The result carries
the Result value of the source together with the engine accumulator and
the operation trace. -/
def delete_directory (root : FsNode) (s : DeletionStats) :
    Except FatalError Unit × DeletionStats × List Event :=
  match resolve root with
  | .metaErr => (.error .accessError, s, [])
  | .file _ _ => (.error .invalidTargetError, s, [])
  | _ =>
    let r1 := delete_directory_contents_concurrent [] root s
    let r2 := remove_directory [] (outerFlag root) r1.1
    (.ok (), r2.1, r1.2 ++ r2.2)

/-- Effect of one event on the accumulator: exactly the DeletionStats call
the source performs at that operation. -/
def applyEvent (s : DeletionStats) : Event → DeletionStats
  | .listFail _ => s.increment_errors
  | .metaFail _ => s.increment_errors
  | .fileOk _ sz => (s.increment_files).add_bytes sz
  | .fileFail _ => s.increment_errors
  | .dirOk _ => s.increment_dirs
  | .dirFail _ => s.increment_errors

/-- Accumulator after replaying a trace from a starting state. -/
def applyTrace (s : DeletionStats) (t : List Event) : DeletionStats :=
  t.foldl applyEvent s

/-- Recoverable failures: the four event kinds that increment the error
counter. -/
def failEvent : Event → Bool
  | .listFail _ => true
  | .metaFail _ => true
  | .fileFail _ => true
  | .dirFail _ => true
  | _ => false

/-- Successful file removals. -/
def isFileOk : Event → Bool
  | .fileOk _ _ => true
  | _ => false

/-- Successful directory removals. -/
def isDirOk : Event → Bool
  | .dirOk _ => true
  | _ => false

/-- Bytes credited by an event: the size of a successful file removal,
zero otherwise. -/
def fileOkBytes : Event → Nat
  | .fileOk _ sz => sz
  | _ => 0

/-- Number of recoverable failures recorded in a trace. -/
def countFail (t : List Event) : Nat := t.countP failEvent

/-- Number of successful file removals in a trace. -/
def countFileOk (t : List Event) : Nat := t.countP isFileOk

/-- Number of successful directory removals in a trace. -/
def countDirOk (t : List Event) : Nat := t.countP isDirOk

/-- Total bytes credited by the successful file removals of a trace. -/
def traceBytes (t : List Event) : Nat := (t.map fileOkBytes).sum

theorem applyTrace_append (s : DeletionStats) (a b : List Event) :
    applyTrace s (a ++ b) = applyTrace (applyTrace s a) b := by
  simp [applyTrace, List.foldl_append]

theorem applyTrace_errors (t : List Event) : ∀ s : DeletionStats,
    (applyTrace s t).errors_encountered = s.errors_encountered + countFail t := by
  induction t with
  | nil => intro s; simp [applyTrace, countFail]
  | cons e t ih =>
    intro s
    have h := ih (applyEvent s e)
    rw [show applyTrace s (e :: t) = applyTrace (applyEvent s e) t from rfl]
    cases e <;>
      simp [countFail, List.countP_cons, failEvent, applyEvent,
        DeletionStats.increment_errors, DeletionStats.increment_files,
        DeletionStats.increment_dirs, DeletionStats.add_bytes] at h ⊢ <;>
      omega

theorem applyTrace_files (t : List Event) : ∀ s : DeletionStats,
    (applyTrace s t).files_deleted = s.files_deleted + countFileOk t := by
  induction t with
  | nil => intro s; simp [applyTrace, countFileOk]
  | cons e t ih =>
    intro s
    have h := ih (applyEvent s e)
    rw [show applyTrace s (e :: t) = applyTrace (applyEvent s e) t from rfl]
    cases e <;>
      simp [countFileOk, List.countP_cons, isFileOk, applyEvent,
        DeletionStats.increment_errors, DeletionStats.increment_files,
        DeletionStats.increment_dirs, DeletionStats.add_bytes] at h ⊢ <;>
      omega

theorem applyTrace_dirs (t : List Event) : ∀ s : DeletionStats,
    (applyTrace s t).dirs_deleted = s.dirs_deleted + countDirOk t := by
  induction t with
  | nil => intro s; simp [applyTrace, countDirOk]
  | cons e t ih =>
    intro s
    have h := ih (applyEvent s e)
    rw [show applyTrace s (e :: t) = applyTrace (applyEvent s e) t from rfl]
    cases e <;>
      simp [countDirOk, List.countP_cons, isDirOk, applyEvent,
        DeletionStats.increment_errors, DeletionStats.increment_files,
        DeletionStats.increment_dirs, DeletionStats.add_bytes] at h ⊢ <;>
      omega

theorem applyTrace_bytes (t : List Event) : ∀ s : DeletionStats,
    s.bytes_freed < 2 ^ 64 →
    (applyTrace s t).bytes_freed = (s.bytes_freed + traceBytes t) % 2 ^ 64 := by
  induction t with
  | nil =>
    intro s hs
    have hs2 : s.bytes_freed < 18446744073709551616 := by
      norm_num at hs
      exact hs
    simp [applyTrace, traceBytes]
    omega
  | cons e t ih =>
    intro s hs
    rw [show applyTrace s (e :: t) = applyTrace (applyEvent s e) t from rfl]
    cases e with
    | fileOk p sz =>
      have hb : ((s.increment_files).add_bytes sz).bytes_freed =
          (s.bytes_freed + sz) % 2 ^ 64 := rfl
      have hlt2 : ((s.increment_files).add_bytes sz).bytes_freed < 2 ^ 64 := by
        rw [hb]
        exact Nat.mod_lt _ (by norm_num)
      rw [show applyEvent s (Event.fileOk p sz) = (s.increment_files).add_bytes sz
        from rfl, ih ((s.increment_files).add_bytes sz) hlt2, hb, Nat.mod_add_mod]
      have ht : traceBytes (Event.fileOk p sz :: t) = sz + traceBytes t := by
        simp [traceBytes, fileOkBytes]
      rw [ht, Nat.add_assoc]
    | listFail p =>
      have ht : traceBytes (Event.listFail p :: t) = traceBytes t := by
        simp [traceBytes, fileOkBytes]
      rw [show applyEvent s (Event.listFail p) = s.increment_errors from rfl,
        ih s.increment_errors hs, ht]
      rfl
    | metaFail p =>
      have ht : traceBytes (Event.metaFail p :: t) = traceBytes t := by
        simp [traceBytes, fileOkBytes]
      rw [show applyEvent s (Event.metaFail p) = s.increment_errors from rfl,
        ih s.increment_errors hs, ht]
      rfl
    | fileFail p =>
      have ht : traceBytes (Event.fileFail p :: t) = traceBytes t := by
        simp [traceBytes, fileOkBytes]
      rw [show applyEvent s (Event.fileFail p) = s.increment_errors from rfl,
        ih s.increment_errors hs, ht]
      rfl
    | dirOk p =>
      have ht : traceBytes (Event.dirOk p :: t) = traceBytes t := by
        simp [traceBytes, fileOkBytes]
      rw [show applyEvent s (Event.dirOk p) = s.increment_dirs from rfl,
        ih s.increment_dirs hs, ht]
      rfl
    | dirFail p =>
      have ht : traceBytes (Event.dirFail p :: t) = traceBytes t := by
        simp [traceBytes, fileOkBytes]
      rw [show applyEvent s (Event.dirFail p) = s.increment_errors from rfl,
        ih s.increment_errors hs, ht]
      rfl

theorem remove_file_applyTrace (p : List Nat) (sz : Nat) (ok : Bool)
    (s : DeletionStats) :
    (remove_file p sz ok s).1 = applyTrace s (remove_file p sz ok s).2 := by
  cases ok <;> simp [remove_file, applyTrace, applyEvent]

theorem remove_directory_applyTrace (p : List Nat) (ok : Bool)
    (s : DeletionStats) :
    (remove_directory p ok s).1 = applyTrace s (remove_directory p ok s).2 := by
  cases ok <;> simp [remove_directory, applyTrace, applyEvent]

theorem classifyErrors_applyTrace : ∀ (p : List Nat) (i : Nat) (es : FsEntries)
    (s : DeletionStats),
    (classifyErrors p i es s).1 = applyTrace s (classifyErrors p i es s).2
  | p, i, .nil, s => by simp [classifyErrors, applyTrace]
  | p, i, .iterFail rest, s => by simp [classifyErrors, applyTrace]
  | p, i, .cons c rest, s => by
    have ih1 := classifyErrors_applyTrace p (i + 1) rest s.increment_errors
    have ih2 := classifyErrors_applyTrace p (i + 1) rest s
    cases h : resolve c <;>
      simp [classifyErrors, h, applyTrace, applyEvent, ih1, ih2] at ih1 ih2 ⊢

theorem deleteFiles_applyTrace : ∀ (p : List Nat) (i : Nat) (es : FsEntries)
    (s : DeletionStats),
    (deleteFiles p i es s).1 = applyTrace s (deleteFiles p i es s).2
  | p, i, .nil, s => by simp [deleteFiles, applyTrace]
  | p, i, .iterFail rest, s => by simp [deleteFiles, applyTrace]
  | p, i, .cons c rest, s => by
    cases h : resolve c with
    | file sz r =>
      have h1 := remove_file_applyTrace (p ++ [i]) sz (outerFlag c) s
      have h2 := deleteFiles_applyTrace p (i + 1) rest
        (remove_file (p ++ [i]) sz (outerFlag c) s).1
      simp only [deleteFiles, h]
      rw [applyTrace_append, ← h1, ← h2]
    | metaErr =>
      have ih := deleteFiles_applyTrace p (i + 1) rest s
      simpa [deleteFiles, h] using ih
    | link r t =>
      have ih := deleteFiles_applyTrace p (i + 1) rest s
      simpa [deleteFiles, h] using ih
    | unreadableDir r =>
      have ih := deleteFiles_applyTrace p (i + 1) rest s
      simpa [deleteFiles, h] using ih
    | dir ch r =>
      have ih := deleteFiles_applyTrace p (i + 1) rest s
      simpa [deleteFiles, h] using ih

mutual
theorem delete_directory_contents_concurrent_applyTrace :
    ∀ (p : List Nat) (n : FsNode) (s : DeletionStats),
    (delete_directory_contents_concurrent p n s).1 =
      applyTrace s (delete_directory_contents_concurrent p n s).2
  | p, .link r t, s => by
    have h := delete_directory_contents_concurrent_applyTrace p t s
    simpa [delete_directory_contents_concurrent] using h
  | p, .unreadableDir r, s => by
    simp [delete_directory_contents_concurrent, applyTrace, applyEvent]
  | p, .file sz r, s => by
    simp [delete_directory_contents_concurrent, applyTrace]
  | p, .metaErr, s => by
    simp [delete_directory_contents_concurrent, applyTrace]
  | p, .dir children r, s => by
    have h1 := classifyErrors_applyTrace p 0 children s
    have h2 := deleteFiles_applyTrace p 0 children (classifyErrors p 0 children s).1
    have h3 := deleteDirs_applyTrace p 0 children
      (deleteFiles p 0 children (classifyErrors p 0 children s).1).1
    simp only [delete_directory_contents_concurrent]
    rw [applyTrace_append, applyTrace_append, ← h1, ← h2, ← h3]

theorem deleteDirs_applyTrace : ∀ (p : List Nat) (i : Nat) (es : FsEntries)
    (s : DeletionStats),
    (deleteDirs p i es s).1 = applyTrace s (deleteDirs p i es s).2
  | p, i, .nil, s => by simp [deleteDirs, applyTrace]
  | p, i, .iterFail rest, s => by simp [deleteDirs, applyTrace]
  | p, i, .cons c rest, s => by
    cases h : resolve c with
    | unreadableDir r =>
      have h1 := delete_directory_contents_concurrent_applyTrace (p ++ [i]) c s
      have h2 := remove_directory_applyTrace (p ++ [i]) (outerFlag c)
        (delete_directory_contents_concurrent (p ++ [i]) c s).1
      have h3 := deleteDirs_applyTrace p (i + 1) rest
        (remove_directory (p ++ [i]) (outerFlag c)
          (delete_directory_contents_concurrent (p ++ [i]) c s).1).1
      simp only [deleteDirs, h]
      rw [applyTrace_append, applyTrace_append, ← h1, ← h2, ← h3]
    | dir ch r =>
      have h1 := delete_directory_contents_concurrent_applyTrace (p ++ [i]) c s
      have h2 := remove_directory_applyTrace (p ++ [i]) (outerFlag c)
        (delete_directory_contents_concurrent (p ++ [i]) c s).1
      have h3 := deleteDirs_applyTrace p (i + 1) rest
        (remove_directory (p ++ [i]) (outerFlag c)
          (delete_directory_contents_concurrent (p ++ [i]) c s).1).1
      simp only [deleteDirs, h]
      rw [applyTrace_append, applyTrace_append, ← h1, ← h2, ← h3]
    | file sz r =>
      have h3 := deleteDirs_applyTrace p (i + 1) rest s
      simpa [deleteDirs, h] using h3
    | metaErr =>
      have h3 := deleteDirs_applyTrace p (i + 1) rest s
      simpa [deleteDirs, h] using h3
    | link r t =>
      have h3 := deleteDirs_applyTrace p (i + 1) rest s
      simpa [deleteDirs, h] using h3
end

/-- Resolution never returns a link: it strips the whole chain. -/
theorem resolve_ne_link : ∀ (n : FsNode) (r : Bool) (t : FsNode),
    resolve n ≠ FsNode.link r t
  | .link r t, a, b => by simpa [resolve] using resolve_ne_link t a b
  | .file sz r, a, b => by simp [resolve]
  | .metaErr, a, b => by simp [resolve]
  | .unreadableDir r, a, b => by simp [resolve]
  | .dir ch r, a, b => by simp [resolve]

/-- Directory-resolving objects: the two shapes on which root validation
succeeds. -/
def isDirNode : FsNode → Bool
  | .unreadableDir _ => true
  | .dir _ _ => true
  | _ => false

theorem delete_directory_applyTrace (root : FsNode) (s : DeletionStats) :
    (delete_directory root s).2.1 =
      applyTrace s (delete_directory root s).2.2 := by
  cases h : resolve root with
  | metaErr => simp [delete_directory, h, applyTrace]
  | file sz r => simp [delete_directory, h, applyTrace]
  | link r t => exact absurd h (resolve_ne_link root r t)
  | unreadableDir r =>
    have h1 := delete_directory_contents_concurrent_applyTrace [] root s
    have h2 := remove_directory_applyTrace [] (outerFlag root)
      (delete_directory_contents_concurrent [] root s).1
    simp only [delete_directory, h]
    rw [applyTrace_append, ← h1, ← h2]
  | dir ch r =>
    have h1 := delete_directory_contents_concurrent_applyTrace [] root s
    have h2 := remove_directory_applyTrace [] (outerFlag root)
      (delete_directory_contents_concurrent [] root s).1
    simp only [delete_directory, h]
    rw [applyTrace_append, ← h1, ← h2]

/-- Componentwise order on accumulator snapshots. -/
def statsLe (a b : DeletionStats) : Prop :=
  a.files_deleted ≤ b.files_deleted ∧ a.dirs_deleted ≤ b.dirs_deleted ∧
  a.errors_encountered ≤ b.errors_encountered ∧ a.bytes_freed ≤ b.bytes_freed

instance (a b : DeletionStats) : Decidable (statsLe a b) :=
  inferInstanceAs (Decidable (a.files_deleted ≤ b.files_deleted ∧
    a.dirs_deleted ≤ b.dirs_deleted ∧
    a.errors_encountered ≤ b.errors_encountered ∧
    a.bytes_freed ≤ b.bytes_freed))

theorem statsLe_applyTrace (s : DeletionStats) (t : List Event)
    (hs : s.bytes_freed < 2 ^ 64)
    (hb : s.bytes_freed + traceBytes t < 2 ^ 64) :
    statsLe s (applyTrace s t) := by
  refine ⟨?_, ?_, ?_, ?_⟩
  · rw [applyTrace_files t s]; omega
  · rw [applyTrace_dirs t s]; omega
  · rw [applyTrace_errors t s]; omega
  · rw [applyTrace_bytes t s hs, Nat.mod_eq_of_lt hb]; omega

/-- Scenario A of the spec: root containing a 100-byte file and a
subdirectory holding a 50-byte file, with no injected failures. -/
def scenarioA : FsNode :=
  .dir (.cons (.file 100 true)
    (.cons (.dir (.cons (.file 50 true) .nil) true) .nil)) true

/-- C1: calling the engine on a path that exists but is a regular file
returns the fatal InvalidTargetError, and the accumulator - created at all
zeros - is still all zeros afterwards: the run returns it untouched, with
an empty operation trace. -/
theorem C1_regular_file_fatal_zero_stats (sz : Nat) (rOk : Bool) :
    delete_directory (FsNode.file sz rOk) DeletionStats.new =
      (Except.error FatalError.invalidTargetError, DeletionStats.new, []) ∧
    DeletionStats.new.get_summary = (0, 0, 0, 0) :=
  ⟨rfl, rfl⟩

/-- C1 witness at a concrete input. -/
theorem C1_regular_file_fatal_zero_stats_witness :
    delete_directory (FsNode.file 100 true) DeletionStats.new =
      (Except.error FatalError.invalidTargetError, DeletionStats.new, []) ∧
    DeletionStats.new.get_summary = (0, 0, 0, 0) :=
  C1_regular_file_fatal_zero_stats 100 true

/-- C2: delete_directory fails exactly when root validation fails - with
accessError when the metadata query on the root fails and with
invalidTargetError when the root resolves to a regular file - and succeeds
on every directory-resolving root; every recoverable failure of the run is
absorbed as one error increment of the accumulator, so the final error
counter is the initial one plus the number of recorded failure events. -/
theorem C2_failure_iff_validation (root : FsNode) (s : DeletionStats) :
    ((delete_directory root s).1 = Except.error FatalError.accessError ↔
      resolve root = FsNode.metaErr) ∧
    ((delete_directory root s).1 = Except.error FatalError.invalidTargetError ↔
      ∃ sz r, resolve root = FsNode.file sz r) ∧
    ((delete_directory root s).1 = Except.ok () ↔ isDirNode (resolve root) = true) ∧
    (delete_directory root s).2.1.errors_encountered =
      s.errors_encountered + countFail (delete_directory root s).2.2 := by
  have habs := delete_directory_applyTrace root s
  have herr := applyTrace_errors (delete_directory root s).2.2 s
  refine ⟨?_, ?_, ?_, ?_⟩
  · cases h : resolve root with
    | metaErr => simp [delete_directory, h]
    | file sz r => simp [delete_directory, h]
    | link r t => exact absurd h (resolve_ne_link root r t)
    | unreadableDir r => simp [delete_directory, h]
    | dir ch r => simp [delete_directory, h]
  · cases h : resolve root with
    | metaErr => simp [delete_directory, h]
    | file sz r => simp [delete_directory, h]
    | link r t => exact absurd h (resolve_ne_link root r t)
    | unreadableDir r => simp [delete_directory, h]
    | dir ch r => simp [delete_directory, h]
  · cases h : resolve root with
    | metaErr => simp [delete_directory, h, isDirNode]
    | file sz r => simp [delete_directory, h, isDirNode]
    | link r t => exact absurd h (resolve_ne_link root r t)
    | unreadableDir r => simp [delete_directory, h, isDirNode]
    | dir ch r => simp [delete_directory, h, isDirNode]
  · rw [habs]; exact herr

/-- C5: on the Scenario A tree the run succeeds and the final snapshot is
two files deleted, two directories deleted (the subdirectory and the
root), 150 bytes freed and no errors. -/
theorem C5_scenario_a :
    (delete_directory scenarioA DeletionStats.new).1 = Except.ok () ∧
    (delete_directory scenarioA DeletionStats.new).2.1.get_summary =
      (2, 2, 0, 150) :=
  ⟨rfl, rfl⟩

/-- Directory holding two files whose metadata length is 2^63 bytes each
(reachable with sparse files), all removals succeeding: the byte counter
wraps during the run. -/
def hugeTree : FsNode :=
  .dir (.cons (.file (2 ^ 63) true)
    (.cons (.file (2 ^ 63) true) .nil)) true

/-- C7 counterexample: add_bytes via the wrapping u64 fetch_add can
decrease bytes_freed.  At the state reached after crediting one 2^63-byte
file, crediting a second 2^63-byte file wraps the counter to zero; the
hugeTree run exhibits exactly this, ending with bytes_freed strictly below
the value it held after its own first operation. -/
theorem C7_counters_monotone_counterexample :
    ¬ statsLe (DeletionStats.new.add_bytes (2 ^ 63))
      ((DeletionStats.new.add_bytes (2 ^ 63)).add_bytes (2 ^ 63)) ∧
    (delete_directory hugeTree DeletionStats.new).2.2 =
      [Event.fileOk [0] (2 ^ 63), Event.fileOk [1] (2 ^ 63), Event.dirOk []] ∧
    (delete_directory hugeTree DeletionStats.new).2.1.bytes_freed <
      (applyTrace DeletionStats.new [Event.fileOk [0] (2 ^ 63)]).bytes_freed := by
  refine ⟨?_, ?_, ?_⟩ <;> decide

/-- C7, amended for the u64 wrap of the byte counter: files_deleted,
dirs_deleted and errors_encountered never decrease under any DeletionStats
or engine operation; bytes_freed never decreases either, provided the
fetch_add does not wrap - that is, whenever the mathematical sum of the
stored value and the bytes credited by the operation stays below 2^64. -/
theorem C7_counters_monotone_u64 :
    (∀ s : DeletionStats,
      statsLe s s.increment_files ∧ statsLe s s.increment_dirs ∧
      statsLe s s.increment_errors ∧
      ∀ n : Nat, s.bytes_freed + n < 2 ^ 64 → statsLe s (s.add_bytes n)) ∧
    (∀ (p : List Nat) (ok : Bool) (s : DeletionStats),
      statsLe s (remove_directory p ok s).1) ∧
    (∀ (p : List Nat) (sz : Nat) (ok : Bool) (s : DeletionStats),
      s.bytes_freed < 2 ^ 64 →
      s.bytes_freed + traceBytes (remove_file p sz ok s).2 < 2 ^ 64 →
      statsLe s (remove_file p sz ok s).1) ∧
    (∀ (p : List Nat) (n : FsNode) (s : DeletionStats),
      s.bytes_freed < 2 ^ 64 →
      s.bytes_freed + traceBytes (delete_directory_contents_concurrent p n s).2 < 2 ^ 64 →
      statsLe s (delete_directory_contents_concurrent p n s).1) ∧
    (∀ (root : FsNode) (s : DeletionStats),
      s.bytes_freed < 2 ^ 64 →
      s.bytes_freed + traceBytes (delete_directory root s).2.2 < 2 ^ 64 →
      statsLe s (delete_directory root s).2.1) := by
  refine ⟨?_, ?_, ?_, ?_, ?_⟩
  · intro s
    refine ⟨?_, ?_, ?_, ?_⟩
    · simp [statsLe, DeletionStats.increment_files]
    · simp [statsLe, DeletionStats.increment_dirs]
    · simp [statsLe, DeletionStats.increment_errors]
    · intro n hn
      have hmod : (s.bytes_freed + n) % 2 ^ 64 = s.bytes_freed + n :=
        Nat.mod_eq_of_lt hn
      refine ⟨?_, ?_, ?_, ?_⟩ <;>
        simp [DeletionStats.add_bytes, hmod] <;> omega
  · intro p ok s
    cases ok <;>
      simp [statsLe, remove_directory, DeletionStats.increment_dirs,
        DeletionStats.increment_errors]
  · intro p sz ok s hs hb
    rw [remove_file_applyTrace]
    exact statsLe_applyTrace s (remove_file p sz ok s).2 hs hb
  · intro p n s hs hb
    rw [delete_directory_contents_concurrent_applyTrace]
    exact statsLe_applyTrace s (delete_directory_contents_concurrent p n s).2 hs hb
  · intro root s hs hb
    rw [delete_directory_applyTrace]
    exact statsLe_applyTrace s (delete_directory root s).2.2 hs hb

/-- C7 witness: the Scenario A run from the fresh accumulator stays far
below the wrap and its final snapshot dominates the initial one. -/
theorem C7_counters_monotone_u64_witness :
    (DeletionStats.new.bytes_freed < 2 ^ 64 ∧
     DeletionStats.new.bytes_freed +
       traceBytes (delete_directory scenarioA DeletionStats.new).2.2 < 2 ^ 64) ∧
    statsLe DeletionStats.new (delete_directory scenarioA DeletionStats.new).2.1 :=
  ⟨⟨by decide, by decide⟩,
   C7_counters_monotone_u64.2.2.2.2 scenarioA DeletionStats.new
     (by decide) (by decide)⟩

/-- Concatenation of entry streams, used to splice an iterator failure
into a stream. -/
def FsEntries.append : FsEntries → FsEntries → FsEntries
  | .nil, t => t
  | .iterFail r, t => .iterFail (FsEntries.append r t)
  | .cons c r, t => .cons c (FsEntries.append r t)

/-- A stream whose top level yields every entry: no iterator failure
before its normal end. -/
def FsEntries.cleanStream : FsEntries → Bool
  | .nil => true
  | .iterFail _ => false
  | .cons _ r => FsEntries.cleanStream r

theorem classifyErrors_append_iterFail : ∀ (p : List Nat) (i : Nat)
    (es rest : FsEntries) (s : DeletionStats),
    FsEntries.cleanStream es = true →
    classifyErrors p i (es.append (.iterFail rest)) s = classifyErrors p i es s
  | p, i, .nil, rest, s, _ => rfl
  | p, i, .iterFail r, rest, s, h => by simp [FsEntries.cleanStream] at h
  | p, i, .cons c r, rest, s, h => by
    have h1 : FsEntries.cleanStream r = true := by
      simpa [FsEntries.cleanStream] using h
    have ih1 := classifyErrors_append_iterFail p (i + 1) r rest s.increment_errors h1
    have ih2 := classifyErrors_append_iterFail p (i + 1) r rest s h1
    cases hc : resolve c <;>
      simp [FsEntries.append, classifyErrors, hc, ih1, ih2]

theorem deleteFiles_append_iterFail : ∀ (p : List Nat) (i : Nat)
    (es rest : FsEntries) (s : DeletionStats),
    FsEntries.cleanStream es = true →
    deleteFiles p i (es.append (.iterFail rest)) s = deleteFiles p i es s
  | p, i, .nil, rest, s, _ => rfl
  | p, i, .iterFail r, rest, s, h => by simp [FsEntries.cleanStream] at h
  | p, i, .cons c r, rest, s, h => by
    have h1 : FsEntries.cleanStream r = true := by
      simpa [FsEntries.cleanStream] using h
    cases hc : resolve c with
    | file sz rOk =>
      have ih := deleteFiles_append_iterFail p (i + 1) r rest
        (remove_file (p ++ [i]) sz (outerFlag c) s).1 h1
      simp [FsEntries.append, deleteFiles, hc, ih]
    | metaErr =>
      have ih := deleteFiles_append_iterFail p (i + 1) r rest s h1
      simp [FsEntries.append, deleteFiles, hc, ih]
    | link rOk t =>
      have ih := deleteFiles_append_iterFail p (i + 1) r rest s h1
      simp [FsEntries.append, deleteFiles, hc, ih]
    | unreadableDir rOk =>
      have ih := deleteFiles_append_iterFail p (i + 1) r rest s h1
      simp [FsEntries.append, deleteFiles, hc, ih]
    | dir ch rOk =>
      have ih := deleteFiles_append_iterFail p (i + 1) r rest s h1
      simp [FsEntries.append, deleteFiles, hc, ih]

theorem deleteDirs_append_iterFail : ∀ (p : List Nat) (i : Nat)
    (es rest : FsEntries) (s : DeletionStats),
    FsEntries.cleanStream es = true →
    deleteDirs p i (es.append (.iterFail rest)) s = deleteDirs p i es s
  | p, i, .nil, rest, s, _ => rfl
  | p, i, .iterFail r, rest, s, h => by simp [FsEntries.cleanStream] at h
  | p, i, .cons c r, rest, s, h => by
    have h1 : FsEntries.cleanStream r = true := by
      simpa [FsEntries.cleanStream] using h
    cases hc : resolve c with
    | file sz rOk =>
      have ih := deleteDirs_append_iterFail p (i + 1) r rest s h1
      simp [FsEntries.append, deleteDirs, hc, ih]
    | metaErr =>
      have ih := deleteDirs_append_iterFail p (i + 1) r rest s h1
      simp [FsEntries.append, deleteDirs, hc, ih]
    | link rOk t =>
      have ih := deleteDirs_append_iterFail p (i + 1) r rest s h1
      simp [FsEntries.append, deleteDirs, hc, ih]
    | unreadableDir rOk =>
      have ih := deleteDirs_append_iterFail p (i + 1) r rest
        (remove_directory (p ++ [i]) (outerFlag c)
          (delete_directory_contents_concurrent (p ++ [i]) c s).1).1 h1
      simp [FsEntries.append, deleteDirs, hc, ih]
    | dir ch rOk =>
      have ih := deleteDirs_append_iterFail p (i + 1) r rest
        (remove_directory (p ++ [i]) (outerFlag c)
          (delete_directory_contents_concurrent (p ++ [i]) c s).1).1 h1
      simp [FsEntries.append, deleteDirs, hc, ih]

/-- C6: a directory whose listing fails records exactly one error, is
treated as having zero children (its processing is the single listFail
event - nothing below it is deleted, recursed into, or counted), the
failure is returned as success to the caller, and a sibling pass that
meets such a directory still goes on to its own removal attempt and to
every later sibling. -/
theorem C6_listing_failure_contained (p : List Nat) (r : Bool)
    (s : DeletionStats) (i : Nat) (rest : FsEntries) :
    delete_directory_contents_concurrent p (FsNode.unreadableDir r) s =
      (s.increment_errors, [Event.listFail p]) ∧
    (deleteDirs p i (FsEntries.cons (FsNode.unreadableDir r) rest) s).2 =
      Event.listFail (p ++ [i]) ::
        (remove_directory (p ++ [i]) r s.increment_errors).2 ++
        (deleteDirs p (i + 1) rest
          (remove_directory (p ++ [i]) r s.increment_errors).1).2 ∧
    (deleteDirs p i (FsEntries.cons (FsNode.unreadableDir r) rest) s).1 =
      (deleteDirs p (i + 1) rest
        (remove_directory (p ++ [i]) r s.increment_errors).1).1 := by
  refine ⟨rfl, ?_, ?_⟩ <;>
    simp [deleteDirs, resolve, outerFlag, delete_directory_contents_concurrent]

/-- C9: an iterator failure partway through a directory listing stops
enumeration silently: however the so-far-clean stream es continues after
the failure point, the processing of the directory equals the processing
of es alone - no error is recorded for the failure itself and the
never-yielded entries in rest are neither deleted, recursed into, nor
counted. -/
theorem C9_iteration_failure_silent (p : List Nat) (R : Bool)
    (s : DeletionStats) (es rest : FsEntries)
    (h : FsEntries.cleanStream es = true) :
    delete_directory_contents_concurrent p
        (FsNode.dir (es.append (.iterFail rest)) R) s =
      delete_directory_contents_concurrent p (FsNode.dir es R) s := by
  have h1 := classifyErrors_append_iterFail p 0 es rest s h
  simp only [delete_directory_contents_concurrent, h1]
  have h2 := deleteFiles_append_iterFail p 0 es rest
    (classifyErrors p 0 es s).1 h
  simp only [h2]
  have h3 := deleteDirs_append_iterFail p 0 es rest
    (deleteFiles p 0 es (classifyErrors p 0 es s).1).1 h
  simp only [h3]

/-- C9 witness: a concrete clean prefix with one yielded file, an iterator
failure, and a lost 5-byte file behind it. -/
theorem C9_iteration_failure_silent_witness :
    FsEntries.cleanStream (FsEntries.cons (FsNode.file 1 true) .nil) = true ∧
    delete_directory_contents_concurrent []
        (FsNode.dir ((FsEntries.cons (FsNode.file 1 true) .nil).append
          (.iterFail (FsEntries.cons (FsNode.file 5 true) .nil))) true)
        DeletionStats.new =
      delete_directory_contents_concurrent []
        (FsNode.dir (FsEntries.cons (FsNode.file 1 true) .nil) true)
        DeletionStats.new :=
  ⟨rfl, C9_iteration_failure_silent [] true DeletionStats.new
    (FsEntries.cons (FsNode.file 1 true) .nil)
    (FsEntries.cons (FsNode.file 5 true) .nil) rfl⟩

/-- C10: classification goes through the link-following resolution, so a
child that is a symbolic link to a directory is processed by the directory
pass - the recursion descends into the target listing and the removal
attempt on the link path uses the link's own outcome - while a child that
is a symbolic link to a file is processed by the file pass with the
target's byte length, which is credited to the accumulator exactly when
the removal of the link succeeds. -/
theorem C10_symlink_classification (p : List Nat) (flag : Bool)
    (s : DeletionStats) (i : Nat) (rest : FsEntries) :
    (∀ (ch : FsEntries) (r2 : Bool),
      deleteDirs p i (FsEntries.cons (FsNode.link flag (FsNode.dir ch r2)) rest) s =
        ((deleteDirs p (i + 1) rest
          (remove_directory (p ++ [i]) flag
            (delete_directory_contents_concurrent (p ++ [i])
              (FsNode.dir ch r2) s).1).1).1,
         (delete_directory_contents_concurrent (p ++ [i]) (FsNode.dir ch r2) s).2 ++
           ((remove_directory (p ++ [i]) flag
             (delete_directory_contents_concurrent (p ++ [i])
               (FsNode.dir ch r2) s).1).2 ++
            (deleteDirs p (i + 1) rest
              (remove_directory (p ++ [i]) flag
                (delete_directory_contents_concurrent (p ++ [i])
                  (FsNode.dir ch r2) s).1).1).2))) ∧
    (∀ (sz : Nat) (r2 : Bool),
      deleteFiles p i (FsEntries.cons (FsNode.link flag (FsNode.file sz r2)) rest) s =
        ((deleteFiles p (i + 1) rest (remove_file (p ++ [i]) sz flag s).1).1,
         (remove_file (p ++ [i]) sz flag s).2 ++
           (deleteFiles p (i + 1) rest (remove_file (p ++ [i]) sz flag s).1).2)) ∧
    (∀ sz : Nat, remove_file (p ++ [i]) sz true s =
      ((s.increment_files).add_bytes sz, [Event.fileOk (p ++ [i]) sz])) := by
  refine ⟨?_, ?_, ?_⟩
  · intro ch r2
    simp [deleteDirs, resolve, outerFlag, delete_directory_contents_concurrent]
  · intro sz r2
    simp [deleteFiles, resolve, outerFlag]
  · intro sz
    simp [remove_file]

/-- A stream of sibling files, one per size in the list, where the child
whose index equals k fails its removal (the simulated lock) and every
other child removes fine.  The first argument is the index of the first
entry. -/
def lockedEntries : Nat → Nat → List Nat → FsEntries
  | _, _, [] => .nil
  | i, k, sz :: rest => .cons (.file sz (i != k)) (lockedEntries (i + 1) k rest)

/-- Scenario of claim C8: a root directory holding only the locked row of
files; the root's own removal fails because the locked file is still in
it. -/
def lockedRoot (sizes : List Nat) (k : Nat) : FsNode :=
  .dir (lockedEntries 0 k sizes) false

/-- Number of indices in the row starting at i that differ from k. -/
def countNe (i k : Nat) (sizes : List Nat) : Nat :=
  match sizes with
  | [] => 0
  | _ :: rest => (if i = k then 0 else 1) + countNe (i + 1) k rest

theorem countNe_all (sizes : List Nat) : ∀ i k : Nat, k < i →
    countNe i k sizes = sizes.length := by
  induction sizes with
  | nil => intro i k h; simp [countNe]
  | cons sz rest ih =>
    intro i k h
    have h1 := ih (i + 1) k (by omega)
    have h2 : ¬ i = k := by omega
    simp [countNe, h2, h1]
    omega

theorem countNe_hit (sizes : List Nat) : ∀ i k : Nat,
    i ≤ k → k < i + sizes.length →
    countNe i k sizes + 1 = sizes.length := by
  induction sizes with
  | nil => intro i k h1 h2; simp at h2; omega
  | cons sz rest ih =>
    intro i k h1 h2
    by_cases h : i = k
    · subst h
      have hall := countNe_all rest (i + 1) i (by omega)
      simp [countNe, hall]
    · have h2x : k < i + 1 + rest.length := by simp at h2; omega
      have hx := ih (i + 1) k (by omega) h2x
      simp [countNe, h]
      omega

theorem deleteFiles_locked (sizes : List Nat) : ∀ (p : List Nat) (i k : Nat)
    (s : DeletionStats),
    (deleteFiles p i (lockedEntries i k sizes) s).1.files_deleted =
      s.files_deleted + countNe i k sizes ∧
    (deleteFiles p i (lockedEntries i k sizes) s).1.errors_encountered =
      s.errors_encountered + (sizes.length - countNe i k sizes) ∧
    (i ≤ k → k < i + sizes.length →
      Event.fileFail (p ++ [k]) ∈ (deleteFiles p i (lockedEntries i k sizes) s).2) := by
  induction sizes with
  | nil =>
    intro p i k s
    refine ⟨by simp [lockedEntries, deleteFiles, countNe], by simp [lockedEntries, deleteFiles, countNe], ?_⟩
    intro h1 h2; simp at h2; omega
  | cons sz rest ih =>
    intro p i k s
    by_cases h : i = k
    · subst h
      have hflag : (i != i) = false := by simp
      have ihx := ih p (i + 1) i s.increment_errors
      have hall := countNe_all rest (i + 1) i (by omega)
      refine ⟨?_, ?_, ?_⟩
      · simp [lockedEntries, deleteFiles, resolve, outerFlag, remove_file, hflag,
          countNe, DeletionStats.increment_errors] at ihx ⊢
        omega
      · simp [lockedEntries, deleteFiles, resolve, outerFlag, remove_file, hflag,
          countNe, hall, DeletionStats.increment_errors] at ihx ⊢
        omega
      · intro h1 h2
        simp [lockedEntries, deleteFiles, resolve, outerFlag, remove_file, hflag]
    · have hflag : (i != k) = true := by simpa using h
      have ihx := ih p (i + 1) k ((s.increment_files).add_bytes sz)
      refine ⟨?_, ?_, ?_⟩
      · simp [lockedEntries, deleteFiles, resolve, outerFlag, remove_file, hflag,
          countNe, h, DeletionStats.increment_files, DeletionStats.add_bytes] at ihx ⊢
        omega
      · simp [lockedEntries, deleteFiles, resolve, outerFlag, remove_file, hflag,
          countNe, h, DeletionStats.increment_files, DeletionStats.add_bytes] at ihx ⊢
        omega
      · intro h1 h2
        have hk : i + 1 ≤ k := by omega
        have hk2 : k < i + 1 + rest.length := by
          simp at h2 ⊢
          omega
        have hmem := (ihx.2.2) hk hk2
        simp [lockedEntries, deleteFiles, resolve, outerFlag, remove_file, hflag]
        exact hmem

theorem classifyErrors_locked (sizes : List Nat) : ∀ (p : List Nat) (i k : Nat)
    (s : DeletionStats),
    classifyErrors p i (lockedEntries i k sizes) s = (s, []) := by
  induction sizes with
  | nil => intro p i k s; simp [lockedEntries, classifyErrors]
  | cons sz rest ih =>
    intro p i k s
    simp [lockedEntries, classifyErrors, resolve, ih]

theorem deleteDirs_locked (sizes : List Nat) : ∀ (p : List Nat) (i k : Nat)
    (s : DeletionStats),
    deleteDirs p i (lockedEntries i k sizes) s = (s, []) := by
  induction sizes with
  | nil => intro p i k s; simp [lockedEntries, deleteDirs]
  | cons sz rest ih =>
    intro p i k s
    simp [lockedEntries, deleteDirs, resolve, ih]

/-- C8: when removal fails for exactly the file at index k among the
sibling files of sizes (all other operations succeeding, the root's own
removal then failing because it is not empty), the run still returns
success, files_deleted is the sibling count minus one, the failed file's
removal failure is on the trace (the file stays in place), and the final
error count is two: the locked file plus the root's failed removal. -/
theorem C8_one_locked_file_contained (sizes : List Nat) (k : Nat)
    (h : k < sizes.length) :
    (delete_directory (lockedRoot sizes k) DeletionStats.new).1 = Except.ok () ∧
    (delete_directory (lockedRoot sizes k) DeletionStats.new).2.1.files_deleted =
      sizes.length - 1 ∧
    (delete_directory (lockedRoot sizes k) DeletionStats.new).2.1.errors_encountered = 2 ∧
    Event.fileFail [k] ∈ (delete_directory (lockedRoot sizes k) DeletionStats.new).2.2 ∧
    Event.dirFail [] ∈ (delete_directory (lockedRoot sizes k) DeletionStats.new).2.2 := by
  obtain ⟨hf1, hf2, hf3⟩ := deleteFiles_locked sizes [] 0 k DeletionStats.new
  have hne := countNe_hit sizes 0 k (by omega) (by omega)
  have hclass := classifyErrors_locked sizes [] 0 k DeletionStats.new
  have hdirs := deleteDirs_locked sizes [] 0 k
    (deleteFiles [] 0 (lockedEntries 0 k sizes) DeletionStats.new).1
  have hnew1 : DeletionStats.new.files_deleted = 0 := rfl
  have hnew2 : DeletionStats.new.errors_encountered = 0 := rfl
  have hrun : delete_directory (lockedRoot sizes k) DeletionStats.new =
      (Except.ok (),
        (deleteFiles [] 0 (lockedEntries 0 k sizes) DeletionStats.new).1.increment_errors,
        (deleteFiles [] 0 (lockedEntries 0 k sizes) DeletionStats.new).2 ++
          [Event.dirFail []]) := by
    simp [delete_directory, lockedRoot, resolve, outerFlag,
      delete_directory_contents_concurrent, hclass, hdirs, remove_directory]
  refine ⟨?_, ?_, ?_, ?_, ?_⟩
  · rw [hrun]
  · rw [hrun]
    simp [DeletionStats.increment_errors]
    omega
  · rw [hrun]
    simp [DeletionStats.increment_errors]
    omega
  · have hmem := hf3 (by omega) (by simp; omega)
    rw [hrun]
    simp at hmem ⊢
    exact hmem
  · rw [hrun]
    simp

/-- C8 witness: two files of 5 and 7 bytes with the first one locked. -/
theorem C8_one_locked_file_contained_witness :
    0 < [5, 7].length ∧
    ((delete_directory (lockedRoot [5, 7] 0) DeletionStats.new).1 = Except.ok () ∧
     (delete_directory (lockedRoot [5, 7] 0) DeletionStats.new).2.1.files_deleted =
       [5, 7].length - 1 ∧
     (delete_directory (lockedRoot [5, 7] 0) DeletionStats.new).2.1.errors_encountered = 2 ∧
     Event.fileFail [0] ∈ (delete_directory (lockedRoot [5, 7] 0) DeletionStats.new).2.2 ∧
     Event.dirFail [] ∈ (delete_directory (lockedRoot [5, 7] 0) DeletionStats.new).2.2) :=
  ⟨by decide, C8_one_locked_file_contained [5, 7] 0 (by decide)⟩

/-- Child of a successfully listed stream at a yielded offset: entries
behind an iterator failure are not addressable, like in the engine. -/
def getYielded : FsEntries → Nat → Option FsNode
  | .nil, _ => none
  | .iterFail _, _ => none
  | .cons c _, 0 => some c
  | .cons _ rest, k + 1 => getYielded rest k

/-- Object addressed by a position: descend from the node through yielded
children of link-resolved directories. -/
def entryAt : FsNode → List Nat → Option FsNode
  | n, [] => some n
  | n, i :: q =>
    match resolve n with
    | .dir children _ =>
      match getYielded children i with
      | some c => entryAt c q
      | none => none
    | _ => none

/-- The position q addresses, below the node n, a file-like entry of byte
length sz whose removal call succeeds: the entry is reachable through
yielded children of listed directories, resolves to a file of that size,
and its own removal outcome is success.  The node itself (empty position)
is never a removed file: the engine only removes files discovered as
children. -/
def isRemovedFile (n : FsNode) (q : List Nat) (sz : Nat) : Bool :=
  match q with
  | [] => false
  | i :: r =>
    match resolve n with
    | .dir children _ =>
      match getYielded children i with
      | some c =>
        match r with
        | [] =>
          match resolve c with
          | .file sz2 _ => (sz2 == sz) && outerFlag c
          | _ => false
        | _ :: _ => isRemovedFile c r sz
      | none => false
    | _ => false

theorem getYielded_cons (c : FsNode) (rest : FsEntries) (k : Nat) (c0 : FsNode) :
    getYielded (.cons c rest) k = some c0 ↔
      (k = 0 ∧ c0 = c) ∨ (∃ k2, k = k2 + 1 ∧ getYielded rest k2 = some c0) := by
  cases k with
  | zero => simp [getYielded, eq_comm]
  | succ k2 => simp [getYielded]

theorem isRemovedFile_link (r : Bool) (t : FsNode) (q : List Nat) (sz : Nat) :
    isRemovedFile (.link r t) q sz = isRemovedFile t q sz := by
  cases q with
  | nil => simp [isRemovedFile]
  | cons i rr => simp [isRemovedFile, resolve]

theorem classifyErrors_events : ∀ (p : List Nat) (i : Nat) (es : FsEntries)
    (s : DeletionStats) (e : Event), e ∈ (classifyErrors p i es s).2 →
    ∃ k, i ≤ k ∧ e = Event.metaFail (p ++ [k])
  | p, i, .nil, s, e => by simp [classifyErrors]
  | p, i, .iterFail rest, s, e => by simp [classifyErrors]
  | p, i, .cons c rest, s, e => by
    intro hmem
    cases hc : resolve c with
    | metaErr =>
      simp [classifyErrors, hc] at hmem
      rcases hmem with h | h
      · exact ⟨i, Nat.le_refl i, h⟩
      · rcases classifyErrors_events p (i + 1) rest s.increment_errors e h with
          ⟨k, hk, he⟩
        exact ⟨k, by omega, he⟩
    | file sz2 r2 =>
      simp [classifyErrors, hc] at hmem
      rcases classifyErrors_events p (i + 1) rest s e hmem with ⟨k, hk, he⟩
      exact ⟨k, by omega, he⟩
    | link r2 t2 =>
      simp [classifyErrors, hc] at hmem
      rcases classifyErrors_events p (i + 1) rest s e hmem with ⟨k, hk, he⟩
      exact ⟨k, by omega, he⟩
    | unreadableDir r2 =>
      simp [classifyErrors, hc] at hmem
      rcases classifyErrors_events p (i + 1) rest s e hmem with ⟨k, hk, he⟩
      exact ⟨k, by omega, he⟩
    | dir ch r2 =>
      simp [classifyErrors, hc] at hmem
      rcases classifyErrors_events p (i + 1) rest s e hmem with ⟨k, hk, he⟩
      exact ⟨k, by omega, he⟩

theorem deleteFiles_fileOk_mem : ∀ (p : List Nat) (i : Nat) (es : FsEntries)
    (s : DeletionStats) (q : List Nat) (sz : Nat),
    Event.fileOk q sz ∈ (deleteFiles p i es s).2 ↔
      ∃ k c, getYielded es k = some c ∧ q = p ++ [i + k] ∧
        outerFlag c = true ∧ ∃ r2, resolve c = FsNode.file sz r2
  | p, i, .nil, s, q, sz => by simp [deleteFiles, getYielded]
  | p, i, .iterFail rest, s, q, sz => by simp [deleteFiles, getYielded]
  | p, i, .cons c rest, s, q, sz => by
    cases hc : resolve c with
    | file sz2 r2 =>
      have ih := deleteFiles_fileOk_mem p (i + 1) rest
        (remove_file (p ++ [i]) sz2 (outerFlag c) s).1 q sz
      constructor
      · intro hmem
        simp [deleteFiles, hc] at hmem
        rcases hmem with h | h
        · cases ho : outerFlag c with
          | true =>
            simp [remove_file, ho] at h
            refine ⟨0, c, by simp [getYielded], by simp [h.1], ho, r2, ?_⟩
            rw [hc, h.2]
          | false => simp [remove_file, ho] at h
        · rcases ih.mp h with ⟨k, c0, hy, hq, ho, r3, hr⟩
          refine ⟨k + 1, c0, by simpa [getYielded] using hy, ?_, ho, r3, hr⟩
          rw [hq]
          have : i + 1 + k = i + (k + 1) := by omega
          rw [this]
      · intro hex
        rcases hex with ⟨k, c0, hy, hq, ho, r3, hr⟩
        rcases (getYielded_cons c rest k c0).mp hy with ⟨hk0, hc0⟩ | ⟨k2, hk2, hy2⟩
        · subst hk0; subst hc0
          rw [hc] at hr
          cases hr
          simp [deleteFiles, hc, remove_file, ho]
          left
          simpa using hq
        · subst hk2
          simp [deleteFiles, hc]
          right
          refine ih.mpr ⟨k2, c0, hy2, ?_, ho, r3, hr⟩
          rw [hq]
          have : i + (k2 + 1) = i + 1 + k2 := by omega
          rw [this]
    | metaErr =>
      have ih := deleteFiles_fileOk_mem p (i + 1) rest s q sz
      constructor
      · intro hmem
        simp [deleteFiles, hc] at hmem
        rcases ih.mp hmem with ⟨k, c0, hy, hq, ho, r3, hr⟩
        refine ⟨k + 1, c0, by simpa [getYielded] using hy, ?_, ho, r3, hr⟩
        rw [hq]; congr 2; omega
      · intro hex
        rcases hex with ⟨k, c0, hy, hq, ho, r3, hr⟩
        rcases (getYielded_cons c rest k c0).mp hy with ⟨hk0, hc0⟩ | ⟨k2, hk2, hy2⟩
        · subst hk0; subst hc0; rw [hc] at hr; cases hr
        · subst hk2
          simp [deleteFiles, hc]
          refine ih.mpr ⟨k2, c0, hy2, ?_, ho, r3, hr⟩
          rw [hq]; congr 2; omega
    | link r2 t2 =>
      exact absurd hc (resolve_ne_link c r2 t2)
    | unreadableDir r2 =>
      have ih := deleteFiles_fileOk_mem p (i + 1) rest s q sz
      constructor
      · intro hmem
        simp [deleteFiles, hc] at hmem
        rcases ih.mp hmem with ⟨k, c0, hy, hq, ho, r3, hr⟩
        refine ⟨k + 1, c0, by simpa [getYielded] using hy, ?_, ho, r3, hr⟩
        rw [hq]; congr 2; omega
      · intro hex
        rcases hex with ⟨k, c0, hy, hq, ho, r3, hr⟩
        rcases (getYielded_cons c rest k c0).mp hy with ⟨hk0, hc0⟩ | ⟨k2, hk2, hy2⟩
        · subst hk0; subst hc0; rw [hc] at hr; cases hr
        · subst hk2
          simp [deleteFiles, hc]
          refine ih.mpr ⟨k2, c0, hy2, ?_, ho, r3, hr⟩
          rw [hq]; congr 2; omega
    | dir ch r2 =>
      have ih := deleteFiles_fileOk_mem p (i + 1) rest s q sz
      constructor
      · intro hmem
        simp [deleteFiles, hc] at hmem
        rcases ih.mp hmem with ⟨k, c0, hy, hq, ho, r3, hr⟩
        refine ⟨k + 1, c0, by simpa [getYielded] using hy, ?_, ho, r3, hr⟩
        rw [hq]; congr 2; omega
      · intro hex
        rcases hex with ⟨k, c0, hy, hq, ho, r3, hr⟩
        rcases (getYielded_cons c rest k c0).mp hy with ⟨hk0, hc0⟩ | ⟨k2, hk2, hy2⟩
        · subst hk0; subst hc0; rw [hc] at hr; cases hr
        · subst hk2
          simp [deleteFiles, hc]
          refine ih.mpr ⟨k2, c0, hy2, ?_, ho, r3, hr⟩
          rw [hq]; congr 2; omega

theorem classifyErrors_no_fileOk (p : List Nat) (i : Nat) (es : FsEntries)
    (s : DeletionStats) (q : List Nat) (sz : Nat) :
    Event.fileOk q sz ∉ (classifyErrors p i es s).2 := by
  intro h
  rcases classifyErrors_events p i es s _ h with ⟨k, _, he⟩
  simp at he

theorem remove_directory_no_fileOk (p : List Nat) (ok : Bool)
    (s : DeletionStats) (q : List Nat) (sz : Nat) :
    Event.fileOk q sz ∉ (remove_directory p ok s).2 := by
  cases ok <;> simp [remove_directory]

mutual
theorem ddcc_fileOk_mem : ∀ (p : List Nat) (n : FsNode) (s : DeletionStats)
    (q : List Nat) (sz : Nat),
    Event.fileOk q sz ∈ (delete_directory_contents_concurrent p n s).2 ↔
      ∃ r, q = p ++ r ∧ isRemovedFile n r sz = true
  | p, .link r t, s, q, sz => by
    have ih := ddcc_fileOk_mem p t s q sz
    rw [show delete_directory_contents_concurrent p (.link r t) s =
      delete_directory_contents_concurrent p t s from rfl]
    simp only [isRemovedFile_link]
    exact ih
  | p, .file sz2 r2, s, q, sz => by
    constructor
    · intro h; simp [delete_directory_contents_concurrent] at h
    · intro hex
      rcases hex with ⟨r, hq, hir⟩
      cases r with
      | nil => simp [isRemovedFile] at hir
      | cons j rr => simp [isRemovedFile, resolve] at hir
  | p, .metaErr, s, q, sz => by
    constructor
    · intro h; simp [delete_directory_contents_concurrent] at h
    · intro hex
      rcases hex with ⟨r, hq, hir⟩
      cases r with
      | nil => simp [isRemovedFile] at hir
      | cons j rr => simp [isRemovedFile, resolve] at hir
  | p, .unreadableDir r2, s, q, sz => by
    constructor
    · intro h; simp [delete_directory_contents_concurrent] at h
    · intro hex
      rcases hex with ⟨r, hq, hir⟩
      cases r with
      | nil => simp [isRemovedFile] at hir
      | cons j rr => simp [isRemovedFile, resolve] at hir
  | p, .dir children R, s, q, sz => by
    have hnof1 := classifyErrors_no_fileOk p 0 children s q sz
    have hfiles := deleteFiles_fileOk_mem p 0 children
      (classifyErrors p 0 children s).1 q sz
    have hdirs := deleteDirs_fileOk_mem p 0 children
      (deleteFiles p 0 children (classifyErrors p 0 children s).1).1 q sz
    constructor
    · intro hmem
      simp only [delete_directory_contents_concurrent, List.mem_append] at hmem
      rcases hmem with h | h | h
      · exact absurd h hnof1
      · rcases hfiles.mp h with ⟨k, c, hy, hq, ho, r2, hr⟩
        refine ⟨[k], by simpa using hq, ?_⟩
        simp [isRemovedFile, resolve, hy, hr, ho]
      · rcases hdirs.mp h with ⟨k, c, r, hy, hq, hir⟩
        refine ⟨k :: r, by simpa using hq, ?_⟩
        cases r with
        | nil => simp [isRemovedFile] at hir
        | cons j rr =>
          simp only [isRemovedFile, resolve, hy]
          exact hir
    · intro hex
      rcases hex with ⟨r, hq, hir⟩
      cases r with
      | nil => simp [isRemovedFile] at hir
      | cons k rr =>
        simp only [isRemovedFile, resolve] at hir
        cases hy : getYielded children k with
        | none => simp [hy] at hir
        | some c =>
          simp only [hy] at hir
          cases rr with
          | nil =>
            cases hrc : resolve c with
            | file sz2 r2 =>
              simp [hrc] at hir
              obtain ⟨hsz, ho⟩ := hir
              subst hsz
              simp only [delete_directory_contents_concurrent, List.mem_append]
              right; left
              exact hfiles.mpr ⟨k, c, hy, by simpa using hq, ho, r2, hrc⟩
            | metaErr => simp [hrc] at hir
            | link r2 t2 => simp [hrc] at hir
            | unreadableDir r2 => simp [hrc] at hir
            | dir ch r2 => simp [hrc] at hir
          | cons j rr2 =>
            simp only [delete_directory_contents_concurrent, List.mem_append]
            right; right
            exact hdirs.mpr ⟨k, c, j :: rr2, hy, by simpa using hq, hir⟩

theorem deleteDirs_fileOk_mem : ∀ (p : List Nat) (i : Nat) (es : FsEntries)
    (s : DeletionStats) (q : List Nat) (sz : Nat),
    Event.fileOk q sz ∈ (deleteDirs p i es s).2 ↔
      ∃ k c r, getYielded es k = some c ∧ q = p ++ (i + k) :: r ∧
        isRemovedFile c r sz = true
  | p, i, .nil, s, q, sz => by simp [deleteDirs, getYielded]
  | p, i, .iterFail rest, s, q, sz => by simp [deleteDirs, getYielded]
  | p, i, .cons c rest, s, q, sz => by
    cases hc : resolve c with
    | dir ch r2 =>
      have ih1 := ddcc_fileOk_mem (p ++ [i]) c s q sz
      have ih2 := deleteDirs_fileOk_mem p (i + 1) rest
        (remove_directory (p ++ [i]) (outerFlag c)
          (delete_directory_contents_concurrent (p ++ [i]) c s).1).1 q sz
      have hnof2 := remove_directory_no_fileOk (p ++ [i]) (outerFlag c)
        (delete_directory_contents_concurrent (p ++ [i]) c s).1 q sz
      constructor
      · intro hmem
        simp only [deleteDirs, hc, List.mem_append] at hmem
        rcases hmem with h | h | h
        · rcases ih1.mp h with ⟨r, hq, hir⟩
          refine ⟨0, c, r, by simp [getYielded], ?_, hir⟩
          rw [hq]; simp
        · exact absurd h hnof2
        · rcases ih2.mp h with ⟨k, c0, r, hy, hq, hir⟩
          exact ⟨k + 1, c0, r, by simpa [getYielded] using hy,
            by rw [hq]; congr 2; omega, hir⟩
      · intro hex
        rcases hex with ⟨k, c0, r, hy, hq, hir⟩
        rcases (getYielded_cons c rest k c0).mp hy with ⟨hk0, hc0⟩ | ⟨k2, hk2, hy2⟩
        · subst hk0; subst hc0
          simp only [deleteDirs, hc, List.mem_append]
          left
          exact ih1.mpr ⟨r, by rw [hq]; simp, hir⟩
        · subst hk2
          simp only [deleteDirs, hc, List.mem_append]
          right; right
          exact ih2.mpr ⟨k2, c0, r, hy2, by rw [hq]; congr 2; omega, hir⟩
    | unreadableDir r2 =>
      have ih1 := ddcc_fileOk_mem (p ++ [i]) c s q sz
      have ih2 := deleteDirs_fileOk_mem p (i + 1) rest
        (remove_directory (p ++ [i]) (outerFlag c)
          (delete_directory_contents_concurrent (p ++ [i]) c s).1).1 q sz
      have hnof2 := remove_directory_no_fileOk (p ++ [i]) (outerFlag c)
        (delete_directory_contents_concurrent (p ++ [i]) c s).1 q sz
      constructor
      · intro hmem
        simp only [deleteDirs, hc, List.mem_append] at hmem
        rcases hmem with h | h | h
        · rcases ih1.mp h with ⟨r, hq, hir⟩
          refine ⟨0, c, r, by simp [getYielded], ?_, hir⟩
          rw [hq]; simp
        · exact absurd h hnof2
        · rcases ih2.mp h with ⟨k, c0, r, hy, hq, hir⟩
          exact ⟨k + 1, c0, r, by simpa [getYielded] using hy,
            by rw [hq]; congr 2; omega, hir⟩
      · intro hex
        rcases hex with ⟨k, c0, r, hy, hq, hir⟩
        rcases (getYielded_cons c rest k c0).mp hy with ⟨hk0, hc0⟩ | ⟨k2, hk2, hy2⟩
        · subst hk0; subst hc0
          simp only [deleteDirs, hc, List.mem_append]
          left
          exact ih1.mpr ⟨r, by rw [hq]; simp, hir⟩
        · subst hk2
          simp only [deleteDirs, hc, List.mem_append]
          right; right
          exact ih2.mpr ⟨k2, c0, r, hy2, by rw [hq]; congr 2; omega, hir⟩
    | file sz2 r2 =>
      have ih2 := deleteDirs_fileOk_mem p (i + 1) rest s q sz
      constructor
      · intro hmem
        simp only [deleteDirs, hc] at hmem
        rcases ih2.mp hmem with ⟨k, c0, r, hy, hq, hir⟩
        exact ⟨k + 1, c0, r, by simpa [getYielded] using hy,
          by rw [hq]; congr 2; omega, hir⟩
      · intro hex
        rcases hex with ⟨k, c0, r, hy, hq, hir⟩
        rcases (getYielded_cons c rest k c0).mp hy with ⟨hk0, hc0⟩ | ⟨k2, hk2, hy2⟩
        · subst hk0; subst hc0
          cases r with
          | nil => simp [isRemovedFile] at hir
          | cons j rr => simp [isRemovedFile, hc] at hir
        · subst hk2
          simp only [deleteDirs, hc]
          exact ih2.mpr ⟨k2, c0, r, hy2, by rw [hq]; congr 2; omega, hir⟩
    | metaErr =>
      have ih2 := deleteDirs_fileOk_mem p (i + 1) rest s q sz
      constructor
      · intro hmem
        simp only [deleteDirs, hc] at hmem
        rcases ih2.mp hmem with ⟨k, c0, r, hy, hq, hir⟩
        exact ⟨k + 1, c0, r, by simpa [getYielded] using hy,
          by rw [hq]; congr 2; omega, hir⟩
      · intro hex
        rcases hex with ⟨k, c0, r, hy, hq, hir⟩
        rcases (getYielded_cons c rest k c0).mp hy with ⟨hk0, hc0⟩ | ⟨k2, hk2, hy2⟩
        · subst hk0; subst hc0
          cases r with
          | nil => simp [isRemovedFile] at hir
          | cons j rr => simp [isRemovedFile, hc] at hir
        · subst hk2
          simp only [deleteDirs, hc]
          exact ih2.mpr ⟨k2, c0, r, hy2, by rw [hq]; congr 2; omega, hir⟩
    | link r2 t2 => exact absurd hc (resolve_ne_link c r2 t2)
end

/-- C4 counterexample: for the hugeTree run (two successfully removed
files of 2^63 bytes each) the program's final bytes_freed is zero while
the sum of the sizes of the successfully removed files is 2^64: the
claimed unconditional equality fails because the u64 counter wraps. -/
theorem C4_bytes_wrap_counterexample :
    (delete_directory hugeTree DeletionStats.new).2.1.bytes_freed = 0 ∧
    traceBytes (delete_directory hugeTree DeletionStats.new).2.2 = 2 ^ 64 ∧
    (delete_directory hugeTree DeletionStats.new).2.1.bytes_freed ≠
      traceBytes (delete_directory hugeTree DeletionStats.new).2.2 := by
  refine ⟨?_, ?_, ?_⟩ <;> decide

/-- C4, amended for the u64 wrap: starting from the fresh accumulator,
bytes_freed ends as the total of the sizes credited by the successful file
removals on the trace, reduced modulo 2^64 (the wrap of the u64 counter,
the identity whenever the total stays below 2^64); files_deleted ends as
their exact number; and a successful file removal at position q with size
sz is on the trace exactly when q addresses, at any depth below the root,
a file-like entry of byte length sz whose removal outcome is success.
Failed removals credit nothing. -/
theorem C4_bytes_freed_accounts_removed_files_mod (root : FsNode) :
    (delete_directory root DeletionStats.new).2.1.bytes_freed =
      traceBytes (delete_directory root DeletionStats.new).2.2 % 2 ^ 64 ∧
    (delete_directory root DeletionStats.new).2.1.files_deleted =
      countFileOk (delete_directory root DeletionStats.new).2.2 ∧
    ∀ (q : List Nat) (sz : Nat),
      Event.fileOk q sz ∈ (delete_directory root DeletionStats.new).2.2 ↔
        isRemovedFile root q sz = true := by
  have habs := delete_directory_applyTrace root DeletionStats.new
  refine ⟨?_, ?_, ?_⟩
  · rw [habs, applyTrace_bytes _ _ (by decide)]
    simp [DeletionStats.new]
  · rw [habs, applyTrace_files]
    simp [DeletionStats.new]
  · intro q sz
    cases h : resolve root with
    | metaErr =>
      constructor
      · intro hm; simp [delete_directory, h] at hm
      · intro hir
        exfalso
        cases q with
        | nil => simp [isRemovedFile] at hir
        | cons j rr => simp [isRemovedFile, h] at hir
    | file sz2 r2 =>
      constructor
      · intro hm; simp [delete_directory, h] at hm
      · intro hir
        exfalso
        cases q with
        | nil => simp [isRemovedFile] at hir
        | cons j rr => simp [isRemovedFile, h] at hir
    | link r2 t2 => exact absurd h (resolve_ne_link root r2 t2)
    | unreadableDir r2 =>
      have h1 := ddcc_fileOk_mem [] root DeletionStats.new q sz
      have h2 := remove_directory_no_fileOk [] (outerFlag root)
        (delete_directory_contents_concurrent [] root DeletionStats.new).1 q sz
      constructor
      · intro hm
        simp only [delete_directory, h, List.mem_append] at hm
        rcases hm with hm | hm
        · rcases h1.mp hm with ⟨r, hq, hir⟩
          simpa [hq] using hir
        · exact absurd hm h2
      · intro hir
        simp only [delete_directory, h, List.mem_append]
        left
        exact h1.mpr ⟨q, by simp, hir⟩
    | dir ch r2 =>
      have h1 := ddcc_fileOk_mem [] root DeletionStats.new q sz
      have h2 := remove_directory_no_fileOk [] (outerFlag root)
        (delete_directory_contents_concurrent [] root DeletionStats.new).1 q sz
      constructor
      · intro hm
        simp only [delete_directory, h, List.mem_append] at hm
        rcases hm with hm | hm
        · rcases h1.mp hm with ⟨r, hq, hir⟩
          simpa [hq] using hir
        · exact absurd hm h2
      · intro hir
        simp only [delete_directory, h, List.mem_append]
        left
        exact h1.mpr ⟨q, by simp, hir⟩

/-- Position r lies strictly under position q: q is a proper path-prefix
of r. -/
def isUnder (q r : List Nat) : Bool :=
  decide (r.take q.length = q) && decide (q.length < r.length)

/-- Removal attempt on the directory at position q: either outcome of
fs::remove_dir there. -/
def removeAttempt (q : List Nat) : Event → Bool
  | .dirOk r => r == q
  | .dirFail r => r == q
  | _ => false

theorem isUnder_length_false (q r : List Nat) (h : r.length ≤ q.length) :
    isUnder q r = false := by
  simp [isUnder]
  intro h2
  omega

theorem isUnder_true_elim (q r : List Nat) (h : isUnder q r = true) :
    ∃ w, w ≠ [] ∧ r = q ++ w := by
  simp [isUnder] at h
  obtain ⟨h1, h2⟩ := h
  refine ⟨r.drop q.length, ?_, ?_⟩
  · intro hw
    have := congrArg List.length hw
    simp at this
    omega
  · conv_lhs => rw [← List.take_append_drop q.length r]
    rw [h1]

theorem isUnder_append (q w : List Nat) (h : w ≠ []) :
    isUnder q (q ++ w) = true := by
  simp [isUnder, List.take_left]
  cases w with
  | nil => exact absurd rfl h
  | cons x t => simp

theorem removeAttempt_pos (q : List Nat) (e : Event)
    (h : removeAttempt q e = true) : e.pos = q := by
  cases e <;> simp [removeAttempt] at h <;> simp [Event.pos, h]

theorem head_after_prefix (p : List Nat) (a b : Nat) (x y : List Nat)
    (h : p ++ a :: x = p ++ b :: y) : a = b := by
  have h2 := List.append_cancel_left h
  exact (List.cons_eq_cons.mp h2).1

theorem split_append {α : Type} : ∀ (t1 t2 a b : List α) (e : α),
    t1 ++ t2 = a ++ e :: b →
    (∃ b1, t1 = a ++ e :: b1 ∧ b = b1 ++ t2) ∨
    (∃ a2, t2 = a2 ++ e :: b ∧ a = t1 ++ a2)
  | [], t2, a, b, e => by
    intro h
    right
    exact ⟨a, by simpa using h, by simp⟩
  | x :: t1r, t2, [], b, e => by
    intro h
    simp at h
    left
    exact ⟨t1r, by simp [h.1], h.2.symm⟩
  | x :: t1r, t2, y :: ar, b, e => by
    intro h
    simp at h
    rcases split_append t1r t2 ar b e h.2 with ⟨b1, h1, h2⟩ | ⟨a2, h1, h2⟩
    · left
      exact ⟨b1, by simp [h.1, h1], h2⟩
    · right
      exact ⟨a2, h1, by simp [h.1, h2]⟩

theorem deleteFiles_events : ∀ (p : List Nat) (i : Nat) (es : FsEntries)
    (s : DeletionStats) (e : Event), e ∈ (deleteFiles p i es s).2 →
    ∃ k, i ≤ k ∧ ((∃ sz, e = Event.fileOk (p ++ [k]) sz) ∨
      e = Event.fileFail (p ++ [k]))
  | p, i, .nil, s, e => by simp [deleteFiles]
  | p, i, .iterFail rest, s, e => by simp [deleteFiles]
  | p, i, .cons c rest, s, e => by
    intro hmem
    cases hc : resolve c with
    | file sz2 r2 =>
      simp only [deleteFiles, hc, List.mem_append] at hmem
      rcases hmem with h | h
      · cases ho : outerFlag c with
        | true =>
          simp [remove_file, ho] at h
          exact ⟨i, Nat.le_refl i, Or.inl ⟨sz2, h⟩⟩
        | false =>
          simp [remove_file, ho] at h
          exact ⟨i, Nat.le_refl i, Or.inr h⟩
      · rcases deleteFiles_events p (i + 1) rest _ e h with ⟨k, hk, he⟩
        exact ⟨k, by omega, he⟩
    | metaErr =>
      simp only [deleteFiles, hc] at hmem
      rcases deleteFiles_events p (i + 1) rest s e hmem with ⟨k, hk, he⟩
      exact ⟨k, by omega, he⟩
    | link r2 t2 => exact absurd hc (resolve_ne_link c r2 t2)
    | unreadableDir r2 =>
      simp only [deleteFiles, hc] at hmem
      rcases deleteFiles_events p (i + 1) rest s e hmem with ⟨k, hk, he⟩
      exact ⟨k, by omega, he⟩
    | dir ch r2 =>
      simp only [deleteFiles, hc] at hmem
      rcases deleteFiles_events p (i + 1) rest s e hmem with ⟨k, hk, he⟩
      exact ⟨k, by omega, he⟩

theorem deleteFiles_no_attempt (p : List Nat) (i : Nat) (es : FsEntries)
    (s : DeletionStats) (e : Event) (q : List Nat)
    (hmem : e ∈ (deleteFiles p i es s).2) : removeAttempt q e = false := by
  rcases deleteFiles_events p i es s e hmem with ⟨k, _, he⟩
  rcases he with ⟨sz, he⟩ | he <;> subst he <;> simp [removeAttempt]

theorem classifyErrors_no_attempt (p : List Nat) (i : Nat) (es : FsEntries)
    (s : DeletionStats) (e : Event) (q : List Nat)
    (hmem : e ∈ (classifyErrors p i es s).2) : removeAttempt q e = false := by
  rcases classifyErrors_events p i es s e hmem with ⟨k, _, he⟩
  subst he
  simp [removeAttempt]

theorem remove_directory_events (p : List Nat) (ok : Bool) (s : DeletionStats)
    (e : Event) (h : e ∈ (remove_directory p ok s).2) :
    e = Event.dirOk p ∨ e = Event.dirFail p := by
  cases ok <;> simp [remove_directory] at h <;> simp [h]

theorem remove_directory_trace (p : List Nat) (ok : Bool) (s : DeletionStats) :
    ∃ ev, (remove_directory p ok s).2 = [ev] ∧
      (ev = Event.dirOk p ∨ ev = Event.dirFail p) := by
  cases ok
  · exact ⟨Event.dirFail p, by simp [remove_directory], Or.inr rfl⟩
  · exact ⟨Event.dirOk p, by simp [remove_directory], Or.inl rfl⟩

mutual
theorem pos_ddcc : ∀ (p : List Nat) (n : FsNode) (s : DeletionStats) (e : Event),
    e ∈ (delete_directory_contents_concurrent p n s).2 →
    e = Event.listFail p ∨ ∃ k t, e.pos = p ++ k :: t
  | p, .link r t, s, e => by
    intro h
    exact pos_ddcc p t s e h
  | p, .unreadableDir r, s, e => by
    intro h
    simp [delete_directory_contents_concurrent] at h
    exact Or.inl h
  | p, .file sz r, s, e => by
    intro h
    simp [delete_directory_contents_concurrent] at h
  | p, .metaErr, s, e => by
    intro h
    simp [delete_directory_contents_concurrent] at h
  | p, .dir children R, s, e => by
    intro h
    simp only [delete_directory_contents_concurrent, List.mem_append] at h
    rcases h with h | h | h
    · rcases classifyErrors_events p 0 children s e h with ⟨k, _, he⟩
      subst he
      exact Or.inr ⟨k, [], by simp [Event.pos]⟩
    · rcases deleteFiles_events p 0 children _ e h with ⟨k, _, he⟩
      rcases he with ⟨sz, he⟩ | he <;> subst he <;>
        exact Or.inr ⟨k, [], by simp [Event.pos]⟩
    · rcases pos_deleteDirs p 0 children _ e h with ⟨k, t, _, hpos⟩
      exact Or.inr ⟨k, t, hpos⟩

theorem pos_deleteDirs : ∀ (p : List Nat) (i : Nat) (es : FsEntries)
    (s : DeletionStats) (e : Event), e ∈ (deleteDirs p i es s).2 →
    ∃ k t, i ≤ k ∧ e.pos = p ++ k :: t
  | p, i, .nil, s, e => by intro h; simp [deleteDirs] at h
  | p, i, .iterFail rest, s, e => by intro h; simp [deleteDirs] at h
  | p, i, .cons c rest, s, e => by
    intro h
    cases hc : resolve c with
    | dir ch r2 =>
      simp only [deleteDirs, hc, List.mem_append] at h
      rcases h with h | h | h
      · rcases pos_ddcc (p ++ [i]) c s e h with he | ⟨k2, t2, hpos⟩
        · subst he
          exact ⟨i, [], Nat.le_refl i, by simp [Event.pos]⟩
        · exact ⟨i, k2 :: t2, Nat.le_refl i, by simpa using hpos⟩
      · rcases remove_directory_events (p ++ [i]) (outerFlag c) _ e h with he | he <;>
          subst he <;> exact ⟨i, [], Nat.le_refl i, by simp [Event.pos]⟩
      · rcases pos_deleteDirs p (i + 1) rest _ e h with ⟨k, t, hk, hpos⟩
        exact ⟨k, t, by omega, hpos⟩
    | unreadableDir r2 =>
      simp only [deleteDirs, hc, List.mem_append] at h
      rcases h with h | h | h
      · rcases pos_ddcc (p ++ [i]) c s e h with he | ⟨k2, t2, hpos⟩
        · subst he
          exact ⟨i, [], Nat.le_refl i, by simp [Event.pos]⟩
        · exact ⟨i, k2 :: t2, Nat.le_refl i, by simpa using hpos⟩
      · rcases remove_directory_events (p ++ [i]) (outerFlag c) _ e h with he | he <;>
          subst he <;> exact ⟨i, [], Nat.le_refl i, by simp [Event.pos]⟩
      · rcases pos_deleteDirs p (i + 1) rest _ e h with ⟨k, t, hk, hpos⟩
        exact ⟨k, t, by omega, hpos⟩
    | file sz2 r2 =>
      simp only [deleteDirs, hc] at h
      rcases pos_deleteDirs p (i + 1) rest s e h with ⟨k, t, hk, hpos⟩
      exact ⟨k, t, by omega, hpos⟩
    | metaErr =>
      simp only [deleteDirs, hc] at h
      rcases pos_deleteDirs p (i + 1) rest s e h with ⟨k, t, hk, hpos⟩
      exact ⟨k, t, by omega, hpos⟩
    | link r2 t2 => exact absurd hc (resolve_ne_link c r2 t2)
end

mutual
theorem ord_ddcc : ∀ (p : List Nat) (n : FsNode) (s : DeletionStats)
    (a : List Event) (e : Event) (b : List Event) (q : List Nat),
    (delete_directory_contents_concurrent p n s).2 = a ++ e :: b →
    removeAttempt q e = true →
    ∀ e2 ∈ b, isUnder q e2.pos = false
  | p, .link r t, s, a, e, b, q => by
    intro h hatt e2 hmem2
    exact ord_ddcc p t s a e b q h hatt e2 hmem2
  | p, .unreadableDir r, s, a, e, b, q => by
    intro h hatt e2 hmem2
    have hmem : e ∈ (delete_directory_contents_concurrent p
        (FsNode.unreadableDir r) s).2 := by
      rw [h]; simp
    simp [delete_directory_contents_concurrent] at hmem
    subst hmem
    simp [removeAttempt] at hatt
  | p, .file sz r, s, a, e, b, q => by
    intro h hatt e2 hmem2
    simp [delete_directory_contents_concurrent] at h
  | p, .metaErr, s, a, e, b, q => by
    intro h hatt e2 hmem2
    simp [delete_directory_contents_concurrent] at h
  | p, .dir children R, s, a, e, b, q => by
    intro h hatt e2 hmem2
    simp only [delete_directory_contents_concurrent] at h
    rcases split_append _ _ a b e h with ⟨b1, ht1, hb⟩ | ⟨a2, hrest, ha⟩
    · have hmem : e ∈ (classifyErrors p 0 children s).2 := by rw [ht1]; simp
      rw [classifyErrors_no_attempt p 0 children s e q hmem] at hatt
      cases hatt
    · rcases split_append _ _ a2 b e hrest with ⟨b2, ht2, hb2⟩ | ⟨a3, ht3, ha3⟩
      · have hmem : e ∈ (deleteFiles p 0 children
            (classifyErrors p 0 children s).1).2 := by rw [ht2]; simp
        rw [deleteFiles_no_attempt p 0 children _ e q hmem] at hatt
        cases hatt
      · exact ord_deleteDirs p 0 children _ a3 e b q ht3 hatt e2 hmem2

theorem ord_deleteDirs : ∀ (p : List Nat) (i : Nat) (es : FsEntries)
    (s : DeletionStats) (a : List Event) (e : Event) (b : List Event)
    (q : List Nat),
    (deleteDirs p i es s).2 = a ++ e :: b →
    removeAttempt q e = true →
    ∀ e2 ∈ b, isUnder q e2.pos = false
  | p, i, .nil, s, a, e, b, q => by
    intro h hatt e2 hmem2
    simp [deleteDirs] at h
  | p, i, .iterFail rest, s, a, e, b, q => by
    intro h hatt e2 hmem2
    simp [deleteDirs] at h
  | p, i, .cons c rest, s, a, e, b, q => by
    intro h hatt e2 hmem2
    cases hc : resolve c with
    | link r2 t2 => exact absurd hc (resolve_ne_link c r2 t2)
    | file sz2 r2 =>
      simp only [deleteDirs, hc] at h
      exact ord_deleteDirs p (i + 1) rest s a e b q h hatt e2 hmem2
    | metaErr =>
      simp only [deleteDirs, hc] at h
      exact ord_deleteDirs p (i + 1) rest s a e b q h hatt e2 hmem2
    | dir ch r2 =>
      simp only [deleteDirs, hc] at h
      obtain ⟨ev, hev, hevor⟩ := remove_directory_trace (p ++ [i]) (outerFlag c)
        (delete_directory_contents_concurrent (p ++ [i]) c s).1
      rw [hev] at h
      rcases split_append _ _ a b e h with ⟨b1, ht1, hb⟩ | ⟨a2, hrest, ha⟩
      · have hmem : e ∈ (delete_directory_contents_concurrent (p ++ [i]) c s).2 := by
          rw [ht1]; simp
        have hq : ∃ k t, q = (p ++ [i]) ++ k :: t := by
          rcases pos_ddcc (p ++ [i]) c s e hmem with he | ⟨k, t, hpos⟩
          · subst he; simp [removeAttempt] at hatt
          · exact ⟨k, t, by rw [← removeAttempt_pos q e hatt, hpos]⟩
        obtain ⟨k, t, hqe⟩ := hq
        subst hb
        rcases List.mem_append.mp hmem2 with h2 | h2
        · exact ord_ddcc (p ++ [i]) c s a e b1 q ht1 hatt e2 h2
        · rcases List.mem_append.mp h2 with h2 | h2
          · have hpos2 : e2.pos = p ++ [i] := by
              rcases List.mem_singleton.mp h2 with rfl
              rcases hevor with rfl | rfl <;> simp [Event.pos]
            rw [hpos2]
            apply isUnder_length_false
            rw [hqe]
            simp
          · rcases pos_deleteDirs p (i + 1) rest _ e2 h2 with ⟨k2, t2x, hk2, hpos2⟩
            cases hiu : isUnder q e2.pos with
            | false => rfl
            | true =>
              exfalso
              rcases isUnder_true_elim q e2.pos hiu with ⟨w, hw0, hw⟩
              rw [hpos2, hqe] at hw
              have hw2 : p ++ k2 :: t2x = p ++ i :: ((k :: t) ++ w) := by
                simpa using hw
              have := head_after_prefix p k2 i t2x ((k :: t) ++ w) hw2
              omega
      · rcases split_append _ _ a2 b e hrest with ⟨b2x, hev2, hb2⟩ | ⟨a3, ht3, ha3⟩
        · cases a2 with
          | cons y a2r =>
            injection hev2 with h1 h2
            exact absurd h2.symm (by simp)
          | nil =>
            injection hev2 with h1 h2
            subst h1
            have hq : q = p ++ [i] := by
              rcases hevor with rfl | rfl <;>
                (simp [removeAttempt] at hatt; exact hatt.symm)
            subst hb2
            have h2 : e2 ∈ (deleteDirs p (i + 1) rest
                (remove_directory (p ++ [i]) (outerFlag c)
                  (delete_directory_contents_concurrent (p ++ [i]) c s).1).1).2 := by
              rw [← h2] at hmem2
              simpa using hmem2
            rcases pos_deleteDirs p (i + 1) rest _ e2 h2 with ⟨k2, t2x, hk2, hpos2⟩
            cases hiu : isUnder q e2.pos with
            | false => rfl
            | true =>
              exfalso
              rcases isUnder_true_elim q e2.pos hiu with ⟨w, hw0, hw⟩
              rw [hpos2, hq] at hw
              have hw2 : p ++ k2 :: t2x = p ++ i :: w := by simpa using hw
              have := head_after_prefix p k2 i t2x w hw2
              omega
        · exact ord_deleteDirs p (i + 1) rest _ a3 e b q ht3 hatt e2 hmem2
    | unreadableDir r2 =>
      simp only [deleteDirs, hc] at h
      obtain ⟨ev, hev, hevor⟩ := remove_directory_trace (p ++ [i]) (outerFlag c)
        (delete_directory_contents_concurrent (p ++ [i]) c s).1
      rw [hev] at h
      rcases split_append _ _ a b e h with ⟨b1, ht1, hb⟩ | ⟨a2, hrest, ha⟩
      · have hmem : e ∈ (delete_directory_contents_concurrent (p ++ [i]) c s).2 := by
          rw [ht1]; simp
        have hq : ∃ k t, q = (p ++ [i]) ++ k :: t := by
          rcases pos_ddcc (p ++ [i]) c s e hmem with he | ⟨k, t, hpos⟩
          · subst he; simp [removeAttempt] at hatt
          · exact ⟨k, t, by rw [← removeAttempt_pos q e hatt, hpos]⟩
        obtain ⟨k, t, hqe⟩ := hq
        subst hb
        rcases List.mem_append.mp hmem2 with h2 | h2
        · exact ord_ddcc (p ++ [i]) c s a e b1 q ht1 hatt e2 h2
        · rcases List.mem_append.mp h2 with h2 | h2
          · have hpos2 : e2.pos = p ++ [i] := by
              rcases List.mem_singleton.mp h2 with rfl
              rcases hevor with rfl | rfl <;> simp [Event.pos]
            rw [hpos2]
            apply isUnder_length_false
            rw [hqe]
            simp
          · rcases pos_deleteDirs p (i + 1) rest _ e2 h2 with ⟨k2, t2x, hk2, hpos2⟩
            cases hiu : isUnder q e2.pos with
            | false => rfl
            | true =>
              exfalso
              rcases isUnder_true_elim q e2.pos hiu with ⟨w, hw0, hw⟩
              rw [hpos2, hqe] at hw
              have hw2 : p ++ k2 :: t2x = p ++ i :: ((k :: t) ++ w) := by
                simpa using hw
              have := head_after_prefix p k2 i t2x ((k :: t) ++ w) hw2
              omega
      · rcases split_append _ _ a2 b e hrest with ⟨b2x, hev2, hb2⟩ | ⟨a3, ht3, ha3⟩
        · cases a2 with
          | cons y a2r =>
            injection hev2 with h1 h2
            exact absurd h2.symm (by simp)
          | nil =>
            injection hev2 with h1 h2
            subst h1
            have hq : q = p ++ [i] := by
              rcases hevor with rfl | rfl <;>
                (simp [removeAttempt] at hatt; exact hatt.symm)
            subst hb2
            have h2 : e2 ∈ (deleteDirs p (i + 1) rest
                (remove_directory (p ++ [i]) (outerFlag c)
                  (delete_directory_contents_concurrent (p ++ [i]) c s).1).1).2 := by
              rw [← h2] at hmem2
              simpa using hmem2
            rcases pos_deleteDirs p (i + 1) rest _ e2 h2 with ⟨k2, t2x, hk2, hpos2⟩
            cases hiu : isUnder q e2.pos with
            | false => rfl
            | true =>
              exfalso
              rcases isUnder_true_elim q e2.pos hiu with ⟨w, hw0, hw⟩
              rw [hpos2, hq] at hw
              have hw2 : p ++ k2 :: t2x = p ++ i :: w := by simpa using hw
              have := head_after_prefix p k2 i t2x w hw2
              omega
        · exact ord_deleteDirs p (i + 1) rest _ a3 e b q ht3 hatt e2 hmem2
end

theorem pass_child_event : ∀ (p : List Nat) (i : Nat) (es : FsEntries)
    (s1 s2 s3 : DeletionStats) (k : Nat) (c : FsNode),
    getYielded es k = some c →
    ∃ e2, (e2 ∈ (classifyErrors p i es s1).2 ∨ e2 ∈ (deleteFiles p i es s2).2 ∨
      e2 ∈ (deleteDirs p i es s3).2) ∧ e2.pos = p ++ [i + k]
  | p, i, .nil, s1, s2, s3, k, c => by intro hy; simp [getYielded] at hy
  | p, i, .iterFail rest, s1, s2, s3, k, c => by intro hy; simp [getYielded] at hy
  | p, i, .cons c0 rest, s1, s2, s3, k, c => by
    intro hy
    cases k with
    | zero =>
      cases hcr : resolve c0 with
      | metaErr =>
        refine ⟨Event.metaFail (p ++ [i]), Or.inl ?_, by simp [Event.pos]⟩
        simp only [classifyErrors, hcr]
        exact List.mem_cons_self _ _
      | file sz2 r2 =>
        cases ho : outerFlag c0 with
        | true =>
          refine ⟨Event.fileOk (p ++ [i]) sz2, Or.inr (Or.inl ?_),
            by simp [Event.pos]⟩
          simp [deleteFiles, hcr, remove_file, ho]
        | false =>
          refine ⟨Event.fileFail (p ++ [i]), Or.inr (Or.inl ?_),
            by simp [Event.pos]⟩
          simp [deleteFiles, hcr, remove_file, ho]
      | dir ch2 r2 =>
        obtain ⟨ev, hev, hevor⟩ := remove_directory_trace (p ++ [i]) (outerFlag c0)
          (delete_directory_contents_concurrent (p ++ [i]) c0 s3).1
        refine ⟨ev, Or.inr (Or.inr ?_), ?_⟩
        · simp [deleteDirs, hcr, hev]
        · rcases hevor with rfl | rfl <;> simp [Event.pos]
      | unreadableDir r2 =>
        obtain ⟨ev, hev, hevor⟩ := remove_directory_trace (p ++ [i]) (outerFlag c0)
          (delete_directory_contents_concurrent (p ++ [i]) c0 s3).1
        refine ⟨ev, Or.inr (Or.inr ?_), ?_⟩
        · simp [deleteDirs, hcr, hev]
        · rcases hevor with rfl | rfl <;> simp [Event.pos]
      | link r2 t2 => exact absurd hcr (resolve_ne_link c0 r2 t2)
    | succ k2 =>
      have hy2 : getYielded rest k2 = some c := by simpa [getYielded] using hy
      have hidx : i + (k2 + 1) = i + 1 + k2 := by omega
      cases hcr : resolve c0 with
      | metaErr =>
        rcases pass_child_event p (i + 1) rest s1.increment_errors s2 s3 k2 c hy2
          with ⟨e2, hm, hp⟩
        refine ⟨e2, ?_, ?_⟩
        · rcases hm with hm | hm | hm
          · left
            simp only [classifyErrors, hcr]
            exact List.mem_cons_of_mem _ hm
          · right; left
            simp only [deleteFiles, hcr]
            exact hm
          · right; right
            simp only [deleteDirs, hcr]
            exact hm
        · rw [hidx]; exact hp
      | file sz2 r2 =>
        rcases pass_child_event p (i + 1) rest s1
          (remove_file (p ++ [i]) sz2 (outerFlag c0) s2).1 s3 k2 c hy2
          with ⟨e2, hm, hp⟩
        refine ⟨e2, ?_, ?_⟩
        · rcases hm with hm | hm | hm
          · left
            simp only [classifyErrors, hcr]
            exact hm
          · right; left
            simp only [deleteFiles, hcr]
            exact List.mem_append_right _ hm
          · right; right
            simp only [deleteDirs, hcr]
            exact hm
        · rw [hidx]; exact hp
      | dir ch2 r2 =>
        rcases pass_child_event p (i + 1) rest s1 s2
          (remove_directory (p ++ [i]) (outerFlag c0)
            (delete_directory_contents_concurrent (p ++ [i]) c0 s3).1).1 k2 c hy2
          with ⟨e2, hm, hp⟩
        refine ⟨e2, ?_, ?_⟩
        · rcases hm with hm | hm | hm
          · left
            simp only [classifyErrors, hcr]
            exact hm
          · right; left
            simp only [deleteFiles, hcr]
            exact hm
          · right; right
            simp only [deleteDirs, hcr]
            exact List.mem_append_right _ (List.mem_append_right _ hm)
        · rw [hidx]; exact hp
      | unreadableDir r2 =>
        rcases pass_child_event p (i + 1) rest s1 s2
          (remove_directory (p ++ [i]) (outerFlag c0)
            (delete_directory_contents_concurrent (p ++ [i]) c0 s3).1).1 k2 c hy2
          with ⟨e2, hm, hp⟩
        refine ⟨e2, ?_, ?_⟩
        · rcases hm with hm | hm | hm
          · left
            simp only [classifyErrors, hcr]
            exact hm
          · right; left
            simp only [deleteFiles, hcr]
            exact hm
          · right; right
            simp only [deleteDirs, hcr]
            exact List.mem_append_right _ (List.mem_append_right _ hm)
        · rw [hidx]; exact hp
      | link r2 t2 => exact absurd hcr (resolve_ne_link c0 r2 t2)

mutual
theorem exist_ddcc : ∀ (p : List Nat) (n : FsNode) (s : DeletionStats)
    (qq : List Nat) (d : FsNode) (ch : FsEntries) (R2 : Bool) (i : Nat)
    (c : FsNode),
    entryAt n qq = some d → resolve d = FsNode.dir ch R2 →
    getYielded ch i = some c →
    ∃ e2 ∈ (delete_directory_contents_concurrent p n s).2,
      e2.pos = p ++ qq ++ [i]
  | p, .link r t, s, qq, d, ch, R2, i, c => by
    intro h1 h2 h3
    cases qq with
    | nil =>
      simp [entryAt] at h1
      subst h1
      have h2x : resolve t = FsNode.dir ch R2 := by simpa [resolve] using h2
      have := exist_ddcc p t s [] t ch R2 i c (by simp [entryAt]) h2x h3
      simpa using this
    | cons j qq2 =>
      have h1x : entryAt t (j :: qq2) = some d := h1
      exact exist_ddcc p t s (j :: qq2) d ch R2 i c h1x h2 h3
  | p, .file sz r, s, qq, d, ch, R2, i, c => by
    intro h1 h2 h3
    exfalso
    cases qq with
    | nil =>
      simp [entryAt] at h1
      subst h1
      simp [resolve] at h2
    | cons j qq2 => simp [entryAt, resolve] at h1
  | p, .metaErr, s, qq, d, ch, R2, i, c => by
    intro h1 h2 h3
    exfalso
    cases qq with
    | nil =>
      simp [entryAt] at h1
      subst h1
      simp [resolve] at h2
    | cons j qq2 => simp [entryAt, resolve] at h1
  | p, .unreadableDir r, s, qq, d, ch, R2, i, c => by
    intro h1 h2 h3
    exfalso
    cases qq with
    | nil =>
      simp [entryAt] at h1
      subst h1
      simp [resolve] at h2
    | cons j qq2 => simp [entryAt, resolve] at h1
  | p, .dir children R, s, qq, d, ch, R2, i, c => by
    intro h1 h2 h3
    cases qq with
    | nil =>
      simp [entryAt] at h1
      subst h1
      have hch : children = ch := by
        simp [resolve] at h2
        exact h2.1
      subst hch
      rcases pass_child_event p 0 children s (classifyErrors p 0 children s).1
        (deleteFiles p 0 children (classifyErrors p 0 children s).1).1 i c h3
        with ⟨e2, hm, hp⟩
      refine ⟨e2, ?_, by rw [hp]; simp⟩
      simp only [delete_directory_contents_concurrent]
      rcases hm with hm | hm | hm
      · exact List.mem_append_left _ hm
      · exact List.mem_append_right _ (List.mem_append_left _ hm)
      · exact List.mem_append_right _ (List.mem_append_right _ hm)
    | cons j qq2 =>
      have h1x : entryAt (FsNode.dir children R) (j :: qq2) = some d := h1
      simp only [entryAt, resolve] at h1x
      cases hyj : getYielded children j with
      | none => rw [hyj] at h1x; cases h1x
      | some cj =>
        rw [hyj] at h1x
        rcases exist_deleteDirs p 0 children
          (deleteFiles p 0 children (classifyErrors p 0 children s).1).1
          j cj qq2 d ch R2 i c hyj h1x h2 h3 with ⟨e2, hm, hp⟩
        refine ⟨e2, ?_, ?_⟩
        · simp only [delete_directory_contents_concurrent]
          exact List.mem_append_right _ (List.mem_append_right _ hm)
        · rw [hp]; simp

theorem exist_deleteDirs : ∀ (p : List Nat) (i : Nat) (es : FsEntries)
    (s : DeletionStats) (k : Nat) (cj : FsNode) (qq2 : List Nat) (d : FsNode)
    (ch : FsEntries) (R2 : Bool) (ii : Nat) (c : FsNode),
    getYielded es k = some cj → entryAt cj qq2 = some d →
    resolve d = FsNode.dir ch R2 → getYielded ch ii = some c →
    ∃ e2 ∈ (deleteDirs p i es s).2, e2.pos = (p ++ [i + k]) ++ qq2 ++ [ii]
  | p, i, .nil, s, k, cj, qq2, d, ch, R2, ii, c => by
    intro h1 h2 h3 h4; simp [getYielded] at h1
  | p, i, .iterFail rest, s, k, cj, qq2, d, ch, R2, ii, c => by
    intro h1 h2 h3 h4; simp [getYielded] at h1
  | p, i, .cons c0 rest, s, k, cj, qq2, d, ch, R2, ii, c => by
    intro h1 h2 h3 h4
    cases k with
    | zero =>
      have hcj : cj = c0 := by
        simp [getYielded] at h1
        exact h1.symm
      subst hcj
      have hdir : ∃ ch0 R0, resolve cj = FsNode.dir ch0 R0 := by
        cases qq2 with
        | nil =>
          simp [entryAt] at h2
          subst h2
          exact ⟨ch, R2, h3⟩
        | cons j2 qq3 =>
          cases hr0 : resolve cj with
          | dir ch0 R0 => exact ⟨ch0, R0, rfl⟩
          | file sz0 r0 => simp [entryAt, hr0] at h2
          | metaErr => simp [entryAt, hr0] at h2
          | unreadableDir r0 => simp [entryAt, hr0] at h2
          | link r0 t0 => exact absurd hr0 (resolve_ne_link cj r0 t0)
      obtain ⟨ch0, R0, hr0⟩ := hdir
      rcases exist_ddcc (p ++ [i]) cj s qq2 d ch R2 ii c h2 h3 h4
        with ⟨e2, hm, hp⟩
      refine ⟨e2, ?_, by rw [hp]; simp⟩
      simp only [deleteDirs, hr0]
      exact List.mem_append_left _ hm
    | succ k2 =>
      have hy2 : getYielded rest k2 = some cj := by simpa [getYielded] using h1
      have hidx : i + (k2 + 1) = i + 1 + k2 := by omega
      cases hr0 : resolve c0 with
      | metaErr =>
        rcases exist_deleteDirs p (i + 1) rest s k2 cj qq2 d ch R2 ii c
          hy2 h2 h3 h4 with ⟨e2, hm, hp⟩
        refine ⟨e2, ?_, ?_⟩
        · simp only [deleteDirs, hr0]
          exact hm
        · rw [hidx]; exact hp
      | file sz0 r0 =>
        rcases exist_deleteDirs p (i + 1) rest s k2 cj qq2 d ch R2 ii c
          hy2 h2 h3 h4 with ⟨e2, hm, hp⟩
        refine ⟨e2, ?_, ?_⟩
        · simp only [deleteDirs, hr0]
          exact hm
        · rw [hidx]; exact hp
      | dir ch0 R0 =>
        rcases exist_deleteDirs p (i + 1) rest
          (remove_directory (p ++ [i]) (outerFlag c0)
            (delete_directory_contents_concurrent (p ++ [i]) c0 s).1).1
          k2 cj qq2 d ch R2 ii c hy2 h2 h3 h4 with ⟨e2, hm, hp⟩
        refine ⟨e2, ?_, ?_⟩
        · simp only [deleteDirs, hr0]
          exact List.mem_append_right _ (List.mem_append_right _ hm)
        · rw [hidx]; exact hp
      | unreadableDir R0 =>
        rcases exist_deleteDirs p (i + 1) rest
          (remove_directory (p ++ [i]) (outerFlag c0)
            (delete_directory_contents_concurrent (p ++ [i]) c0 s).1).1
          k2 cj qq2 d ch R2 ii c hy2 h2 h3 h4 with ⟨e2, hm, hp⟩
        refine ⟨e2, ?_, ?_⟩
        · simp only [deleteDirs, hr0]
          exact List.mem_append_right _ (List.mem_append_right _ hm)
        · rw [hidx]; exact hp
      | link r0 t0 => exact absurd hr0 (resolve_ne_link c0 r0 t0)
end

theorem delete_directory_trace_eq (root : FsNode) (s : DeletionStats)
    (h : isDirNode (resolve root) = true) :
    (delete_directory root s).2.2 =
      (delete_directory_contents_concurrent [] root s).2 ++
        (remove_directory [] (outerFlag root)
          (delete_directory_contents_concurrent [] root s).1).2 := by
  cases hr : resolve root with
  | metaErr => rw [hr] at h; simp [isDirNode] at h
  | file sz r => rw [hr] at h; simp [isDirNode] at h
  | link r t => exact absurd hr (resolve_ne_link root r t)
  | unreadableDir r => simp [delete_directory, hr]
  | dir ch r => simp [delete_directory, hr]

theorem delete_directory_isDir_of_split (root : FsNode) (s : DeletionStats)
    (a b : List Event) (e : Event)
    (hsplit : (delete_directory root s).2.2 = a ++ e :: b) :
    isDirNode (resolve root) = true := by
  cases hr : resolve root with
  | metaErr => simp [delete_directory, hr] at hsplit
  | file sz r => simp [delete_directory, hr] at hsplit
  | link r t => exact absurd hr (resolve_ne_link root r t)
  | unreadableDir r => simp [isDirNode]
  | dir ch r => simp [isDirNode]

/-- C3: children before parent.  Whenever the run trace splits around a
removal attempt on the directory at position q, nothing that comes after
the attempt acts at a position strictly under q (every event below q -
every file removal, every metadata error, every descendant directory
attempt - precedes the attempt on q), and every child discovered in the
listing of the directory at q has an event at its own position strictly
before the attempt. -/
theorem C3_children_before_parent (root : FsNode) (s : DeletionStats)
    (a b : List Event) (e : Event) (q : List Nat)
    (hsplit : (delete_directory root s).2.2 = a ++ e :: b)
    (hatt : removeAttempt q e = true) :
    (∀ e2 ∈ b, isUnder q e2.pos = false) ∧
    (∀ (d : FsNode) (ch : FsEntries) (R2 : Bool) (i : Nat) (c : FsNode),
      entryAt root q = some d → resolve d = FsNode.dir ch R2 →
      getYielded ch i = some c → ∃ e2 ∈ a, e2.pos = q ++ [i]) := by
  have hdir := delete_directory_isDir_of_split root s a b e hsplit
  have htr := delete_directory_trace_eq root s hdir
  rw [htr] at hsplit
  obtain ⟨ev, hev, hevor⟩ := remove_directory_trace [] (outerFlag root)
    (delete_directory_contents_concurrent [] root s).1
  rw [hev] at hsplit
  have hord : ∀ e2 ∈ b, isUnder q e2.pos = false := by
    rcases split_append _ _ a b e hsplit with ⟨b1, ht1, hb⟩ | ⟨a2, hev2, ha⟩
    · intro e2 hmem2
      subst hb
      rcases List.mem_append.mp hmem2 with h2 | h2
      · exact ord_ddcc [] root s a e b1 q ht1 hatt e2 h2
      · have hpos2 : e2.pos = [] := by
          rcases List.mem_singleton.mp h2 with rfl
          rcases hevor with rfl | rfl <;> simp [Event.pos]
        rw [hpos2]
        apply isUnder_length_false
        simp
    · cases a2 with
      | cons y a2r =>
        injection hev2 with h1 h2
        exact absurd h2.symm (by simp)
      | nil =>
        injection hev2 with h1 h2
        intro e2 hmem2
        rw [← h2] at hmem2
        simp at hmem2
  refine ⟨hord, ?_⟩
  intro d ch R2 i c h1 h2 h3
  rcases exist_ddcc [] root s q d ch R2 i c h1 h2 h3 with ⟨e2x, hmx, hpx⟩
  have hpx2 : e2x.pos = q ++ [i] := by rw [hpx]; simp
  have hmem : e2x ∈ a ++ e :: b := by
    rw [← hsplit]
    exact List.mem_append_left _ hmx
  rcases List.mem_append.mp hmem with hmem | hmem
  · exact ⟨e2x, hmem, hpx2⟩
  · rcases List.mem_cons.mp hmem with rfl | hmem
    · exfalso
      have hq := removeAttempt_pos q e2x hatt
      rw [hpx2] at hq
      have := congrArg List.length hq
      simp at this
    · exfalso
      have hfalse := hord e2x hmem
      rw [hpx2] at hfalse
      rw [isUnder_append q [i] (by simp)] at hfalse
      cases hfalse

/-- C3 witness: the Scenario A run, split at the removal attempt of the
subdirectory. -/
theorem C3_children_before_parent_witness :
    ((delete_directory scenarioA DeletionStats.new).2.2 =
      [Event.fileOk [0] 100, Event.fileOk [1, 0] 50] ++
        Event.dirOk [1] :: [Event.dirOk []] ∧
     removeAttempt [1] (Event.dirOk [1]) = true) ∧
    ((∀ e2 ∈ [Event.dirOk []], isUnder [1] e2.pos = false) ∧
     (∀ (d : FsNode) (ch : FsEntries) (R2 : Bool) (i : Nat) (c : FsNode),
       entryAt scenarioA [1] = some d → resolve d = FsNode.dir ch R2 →
       getYielded ch i = some c →
       ∃ e2 ∈ [Event.fileOk [0] 100, Event.fileOk [1, 0] 50],
         e2.pos = [1] ++ [i])) :=
  ⟨⟨by decide, by decide⟩,
   C3_children_before_parent scenarioA DeletionStats.new
     [Event.fileOk [0] 100, Event.fileOk [1, 0] 50] [Event.dirOk []]
     (Event.dirOk [1]) [1] (by decide) (by decide)⟩

end FastDel
